import Mathlib

/-!
# Simple console calculator (`src/Calculator.cpp`)

A shallow embedding of the calculator and theorems about it.

Modelling conventions.

* `double` is IEEE 754 binary64 with round-to-nearest, ties-to-even.  A value is
  `nan`, a signed infinity, or a signed finite number `m * 2 ^ e`; the arithmetic
  operators compute the exact result on integers and round it once.  The sign and
  payload of a NaN are not tracked.
* `operator<<` on a `double` is the default stream format: six significant digits,
  general notation (`%g`).  A NaN is written `nan`; an implementation writes `-nan` for
  one whose sign bit is set.
* An extraction into a `double` or an `int` yields only values of that type: text out of
  range makes the extraction fail, so it is an item of another kind.
* Console input is the sequence of items the extractions meet.  An extraction that
  meets an item of another kind fails and the item is discarded, which is what
  `clear()` followed by `ignore(..., '\n')` does to a rejected line.  When the input is
  exhausted an extraction never succeeds, so the prompting loop does not return.
* `std::vector` is a list; an element access outside the bounds is a `fault`.
-/

set_option maxRecDepth 100000
set_option exponentiation.threshold 4096

namespace Calculator

/-! ## Doubles -/

/-- A binary64 value.  `fin neg m e` is `(-1)^neg * m * 2^e`; the encodable values have
`m < 2^53` and `-1074 ≤ e ≤ 971`, written with `2^52 ≤ m` unless `e = -1074`. -/
inductive Double where
  | nan
  | inf (neg : Bool)
  | fin (neg : Bool) (m : Nat) (e : Int)
  deriving DecidableEq, Repr

/-- Number of binary digits of `n`, by repeated halving. -/
def bitLengthAux : Nat → Nat → Nat
  | 0, _ => 0
  | fuel + 1, n => if n = 0 then 0 else bitLengthAux fuel (n / 2) + 1

/-- Number of binary digits of `n` (`0` for `0`). -/
def bitLength (n : Nat) : Nat := bitLengthAux n n

/-- The integer nearest to `n / d`, ties to the even one. -/
def roundHalfEven (n d : Nat) : Nat :=
  let q := n / d
  let r := n % d
  if 2 * r < d then q
  else if d < 2 * r then q + 1
  else if q % 2 = 0 then q else q + 1

namespace Double

/-- Rounds the exact magnitude `n / d` (with `0 < d`) to binary64 and attaches the sign:
53 significant bits, exponent not below `-1074`, overflow to infinity. -/
def ofRatio (neg : Bool) (n d : Nat) : Double :=
  if n = 0 then fin neg 0 (-1074)
  else
    let l : Int := (bitLength n : Int) - (bitLength d : Int)
    let L : Int := if d * 2 ^ l.toNat ≤ n * 2 ^ (-l).toNat then l else l - 1
    let e : Int := max (L - 52) (-1074)
    let m := roundHalfEven (n * 2 ^ (-e).toNat) (d * 2 ^ e.toNat)
    if m = 2 ^ 53 then
      (if e + 1 > 971 then inf neg else fin neg (2 ^ 52) (e + 1))
    else
      (if e > 971 then inf neg else fin neg m e)

/-- Rewrites `m * 2^e` with the largest mantissa below `2^53` the exponent range allows.
Only shifts to the left, so the value is kept exactly. -/
def renormalize (neg : Bool) (m : Nat) (e : Int) : Double :=
  if m = 0 then fin neg 0 (-1074)
  else
    let k : Nat := (min (53 - (bitLength m : Int)) (e + 1074)).toNat
    fin neg (m * 2 ^ k) (e - k)

/-- The double of an integer literal. -/
def ofInt (i : Int) : Double := ofRatio (decide (i < 0)) i.natAbs 1

/-- Unary minus. -/
def negate : Double → Double
  | nan => nan
  | inf s => inf (!s)
  | fin s m e => fin (!s) m e

/-- A mantissa with its sign. -/
def signedMantissa (s : Bool) (m : Nat) : Int := if s then -(m : Int) else m

/-- `a + b`. -/
def add : Double → Double → Double
  | nan, _ => nan
  | _, nan => nan
  | inf s, inf t => if s = t then inf s else nan
  | inf s, fin _ _ _ => inf s
  | fin _ _ _, inf t => inf t
  | fin s m e, fin t n f =>
    let g := min e f
    let c : Int :=
      signedMantissa s (m * 2 ^ (e - g).toNat) + signedMantissa t (n * 2 ^ (f - g).toNat)
    if c = 0 then fin (s && t) 0 (-1074)
    else ofRatio (decide (c < 0)) (c.natAbs * 2 ^ g.toNat) (2 ^ (-g).toNat)

/-- `a - b`. -/
def sub (a b : Double) : Double := add a (negate b)

/-- `a * b`. -/
def mul : Double → Double → Double
  | nan, _ => nan
  | _, nan => nan
  | inf s, inf t => inf (xor s t)
  | inf s, fin t n _ => if n = 0 then nan else inf (xor s t)
  | fin s m _, inf t => if m = 0 then nan else inf (xor s t)
  | fin s m e, fin t n f =>
    ofRatio (xor s t) (m * n * 2 ^ (e + f).toNat) (2 ^ (-(e + f)).toNat)

/-- `a / b`. -/
def div : Double → Double → Double
  | nan, _ => nan
  | _, nan => nan
  | inf _, inf _ => nan
  | inf s, fin t _ _ => inf (xor s t)
  | fin s _ _, inf t => fin (xor s t) 0 (-1074)
  | fin s m e, fin t n f =>
    if n = 0 then (if m = 0 then nan else inf (xor s t))
    else ofRatio (xor s t) (m * 2 ^ (e - f).toNat) (n * 2 ^ (f - e).toNat)

/-- `std::fmod(a, b)`: both mantissas are brought to the smaller exponent and the
remainder of the integer division is taken; the result carries the sign of `a`. -/
def fmod : Double → Double → Double
  | nan, _ => nan
  | _, nan => nan
  | inf _, _ => nan
  | fin s m e, inf _ => fin s m e
  | fin s m e, fin _ n f =>
    if n = 0 then nan
    else
      let g := min e f
      renormalize s ((m * 2 ^ (e - g).toNat) % (n * 2 ^ (f - g).toNat)) g

/-- `x == 0.0`: true for both zeros, false for NaN. -/
def isZero : Double → Bool
  | fin _ m _ => m == 0
  | _ => false

/-- The factor `-1` or `1` of a sign bit. -/
def signFactor (s : Bool) : ℚ := if s then -1 else 1

/-- The number a finite double stands for; NaN and the infinities stand for none. -/
def value : Double → Option ℚ
  | fin s m e => some (signFactor s * (m : ℚ) * (2 : ℚ) ^ e)
  | _ => none

/-- The sign bit of a double that has one. -/
def signBit : Double → Option Bool
  | fin s _ _ => some s
  | inf s => some s
  | nan => none

/-! ### Stream output of a double -/

/-- Drops the trailing zeros of a digit string. -/
def stripZeros (l : List Char) : List Char :=
  (l.reverse.dropWhile (fun c => c == '0')).reverse

/-- Integer part, then a point and the fraction digits when there are any. -/
def withFraction (intPart frac : List Char) : String :=
  if frac.isEmpty then String.mk intPart else String.mk (intPart ++ '.' :: frac)

/-- Exponent suffix of the scientific form: sign and at least two digits. -/
def exponentText (x : Int) : String :=
  (if x < 0 then "e-" else "e+") ++
    (if x.natAbs < 10 then "0" else "") ++ String.mk (Nat.toDigits 10 x.natAbs)

/-- Text of the sign. -/
def signText (s : Bool) : String := if s then "-" else ""

/-- Text produced by `stream << x` with the default flags and precision 6: the value is
rounded to six significant digits; with decimal exponent `x`, fixed notation is used when
`-4 ≤ x < 6` and scientific notation otherwise; trailing zeros are removed. -/
def format : Double → String
  | nan => "nan"
  | inf s => signText s ++ "inf"
  | fin s m e =>
    if m = 0 then signText s ++ "0"
    else
      let n := m * 2 ^ e.toNat
      let d := 2 ^ (-e).toNat
      let x0 : Int := ((Nat.toDigits 10 n).length : Int) - ((Nat.toDigits 10 d).length : Int)
      let x1 : Int := if d * 10 ^ x0.toNat ≤ n * 10 ^ (-x0).toNat then x0 else x0 - 1
      let sig := roundHalfEven (n * 10 ^ (5 - x1).toNat) (d * 10 ^ (x1 - 5).toNat)
      let x : Int := if sig = 10 ^ 6 then x1 + 1 else x1
      let digits := Nat.toDigits 10 (if sig = 10 ^ 6 then 10 ^ 5 else sig)
      signText s ++
        (if -4 ≤ x ∧ x < 6 then
          (if 0 ≤ x then
            withFraction (digits.take (x.toNat + 1)) (stripZeros (digits.drop (x.toNat + 1)))
          else
            withFraction ['0'] (List.replicate ((-x).toNat - 1) '0' ++ stripZeros digits))
        else
          withFraction (digits.take 1) (stripZeros (digits.drop 1)) ++ exponentText x)

end Double

/-! ### The rounding the specification describes -/

/-- The numbers of the binary64 format: magnitude `m * 2 ^ e` with `m < 2 ^ 53` and
`-1074 ≤ e ≤ 971`. -/
def Representable (w : ℚ) : Prop :=
  ∃ (m : Nat) (e : Int), m < 2 ^ 53 ∧ -1074 ≤ e ∧ e ≤ 971 ∧ |w| = (m : ℚ) * (2 : ℚ) ^ e

/-- The double `r` is the exact number `q` rounded to binary64, to nearest with ties to
even.  Below the overflow threshold `2 ^ 1024 - 2 ^ 970` in magnitude, `r` is a finite
double in its encoding (`2 ^ 52 ≤ m`, or the least exponent), with the sign of `q` when
`q` is not zero, no number of the format is nearer to `q`, and when another one is as near
the mantissa of `r` is even.  From the threshold on, `r` is the infinity of the sign of
`q`. -/
def IsRounded (q : ℚ) (r : Double) : Prop :=
  (|q| < 2 ^ 1024 - 2 ^ 970 →
    ∃ (s : Bool) (m : Nat) (e : Int), r = Double.fin s m e ∧
      m < 2 ^ 53 ∧ -1074 ≤ e ∧ e ≤ 971 ∧ (2 ^ 52 ≤ m ∨ e = -1074) ∧
      (q < 0 → s = true) ∧ (0 < q → s = false) ∧
      (∀ w, Representable w →
        |Double.signFactor s * (m : ℚ) * (2 : ℚ) ^ e - q| ≤ |w - q|) ∧
      (∀ w, Representable w → w ≠ Double.signFactor s * (m : ℚ) * (2 : ℚ) ^ e →
        |w - q| = |Double.signFactor s * (m : ℚ) * (2 : ℚ) ^ e - q| → m % 2 = 0)) ∧
  (2 ^ 1024 - 2 ^ 970 ≤ |q| → r = Double.inf (decide (q < 0)))

/-! ### The remainder the specification describes -/

/-- The integer obtained from `x` by rounding toward zero. -/
def truncate (x : ℚ) : ℤ := if 0 ≤ x then ⌊x⌋ else ⌈x⌉

/-- The specification of the remainder: `r` is the number `a - q * b` for `q` the quotient
`a / b` truncated toward zero, it is smaller than `b` in magnitude, and it is zero or has
the sign of `a`.  All three operands must be numbers. -/
def IsRemainder (a b r : Double) : Prop :=
  ∃ x y z : ℚ, a.value = some x ∧ b.value = some y ∧ r.value = some z ∧
    z = x - (truncate (x / y) : ℚ) * y ∧ |z| < |y| ∧ (z = 0 ∨ 0 < z * x)

/-! ## Console -/

/-- One item of console input, tagged with the extraction that can read it. -/
inductive Token where
  | number (value : Double)
  | character (c : Char)
  | integer (value : Int)
  deriving DecidableEq, Repr

namespace Token

/-- Result of `std::cin >> value` for a `double`. -/
def asNumber : Token → Option Double
  | number value => some value
  | _ => none

/-- Result of `std::cin >> op` for a `char`. -/
def asCharacter : Token → Option Char
  | character c => some c
  | _ => none

/-- Result of `std::cin >> selection` for an `int`. -/
def asInteger : Token → Option Int
  | integer value => some value
  | _ => none

end Token

/-- Standard input still to be read, and everything written to standard output. -/
structure Console where
  input : List Token
  output : String
  deriving DecidableEq, Repr

/-- Appends text to standard output. -/
def Console.print (c : Console) (text : String) : Console :=
  { c with output := c.output ++ text }

/-- Outcome of a piece of the program that reads input. -/
inductive Run (α : Type) where
  | done (result : α) (console : Console)
  | blocked
  | fault
  deriving DecidableEq, Repr

/-- Decimal text of an unsigned integer. -/
def decimal (n : Nat) : String := String.mk (Nat.toDigits 10 n)

/-- Decimal text of an `int`. -/
def intText (i : Int) : String := if i < 0 then "-" ++ decimal i.natAbs else decimal i.toNat

/-! ## The program -/

/-- Record of one session (lines 10-13). -/
structure CalculationRecord where
  steps : List String
  lastResult : Double
  deriving DecidableEq, Repr

/-- The loop of `promptForNumber` over the remaining input (lines 17-27). -/
def promptForNumberLoop (label : String) : List Token → String → Run Double
  | [], _ => Run.blocked
  | tok :: rest, out =>
    match tok.asNumber with
    | some value => Run.done value ⟨rest, out ++ "Enter " ++ label ++ ": "⟩
    | none =>
      promptForNumberLoop label rest
        (out ++ "Enter " ++ label ++ ": " ++ "Invalid number. Please try again.\n")

/-- Prompts for a floating-point number until one is read (lines 16-28). -/
def promptForNumber (label : String) (c : Console) : Run Double :=
  promptForNumberLoop label c.input c.output

/-- The cases of the `switch` in `promptForOperation` that return (lines 37-48). -/
def isMenuChoice (op : Char) : Bool :=
  op = '+' || op = '-' || op = '*' || op = '/' || op = '%' || op = 'n' || op = 'N' ||
    op = 'm' || op = 'M' || op = 'q' || op = 'Q'

/-- Text of the operation prompt (line 33). -/
def operationPrompt : String :=
  "Choose operation (+, -, *, /, %, n for new, m for memory, q to quit): "

/-- Text printed after a rejected operation (line 56). -/
def operationRejected : String :=
  "Unsupported operation. Please choose one of +, -, *, /, %, n, m, or q.\n"

/-- The loop of `promptForOperation` over the remaining input (lines 32-57). -/
def promptForOperationLoop : List Token → String → Run Char
  | [], _ => Run.blocked
  | tok :: rest, out =>
    match tok.asCharacter with
    | some op =>
      if isMenuChoice op then Run.done op ⟨rest, out ++ operationPrompt⟩
      else promptForOperationLoop rest (out ++ operationPrompt ++ operationRejected)
    | none => promptForOperationLoop rest (out ++ operationPrompt ++ operationRejected)

/-- Prompts for an operation until a supported one is read (lines 31-58). -/
def promptForOperation (c : Console) : Run Char :=
  promptForOperationLoop c.input c.output

/-- Executes the arithmetic selected by `op` (lines 61-82).  A thrown
`std::runtime_error` is the `error` carrying its message. -/
def calculate (lhs rhs : Double) (op : Char) : Except String Double :=
  if op = '+' then Except.ok (lhs.add rhs)
  else if op = '-' then Except.ok (lhs.sub rhs)
  else if op = '*' then Except.ok (lhs.mul rhs)
  else if op = '/' then
    (if rhs.isZero then Except.error "Division by zero is undefined."
     else Except.ok (lhs.div rhs))
  else if op = '%' then
    (if rhs.isZero then Except.error "Modulo by zero is undefined."
     else Except.ok (lhs.fmod rhs))
  else Except.error "Unsupported operation."

/-- Creates a record with the initial value captured (lines 85-92). -/
def createInitialRecord (initialValue : Double) : CalculationRecord :=
  { steps := [] ++ ["Start: " ++ initialValue.format], lastResult := initialValue }

/-- Appends the description of a performed operation (lines 95-104). -/
def appendStep (record : CalculationRecord) (previousResult : Double) (op : Char)
    (operand newResult : Double) : CalculationRecord :=
  { steps := record.steps ++
      [previousResult.format ++ " " ++ String.singleton op ++ " " ++ operand.format ++ " = " ++
        newResult.format],
    lastResult := newResult }

/-- Pairs `(i + 1, history[i].lastResult)` in the order the listing loop visits them
(lines 115-117). -/
def listSummariesFrom : Nat → List CalculationRecord → List (Nat × Double)
  | _, [] => []
  | i, record :: rest => (i + 1, record.lastResult) :: listSummariesFrom (i + 1) rest

/-- Summaries of the whole store, numbered from one. -/
def listSummaries (history : List CalculationRecord) : List (Nat × Double) :=
  listSummariesFrom 0 history

/-- Text of the listing (lines 114-117). -/
def summaryText : List (Nat × Double) → String
  | [] => ""
  | (i, lastResult) :: rest =>
    "  " ++ decimal i ++ ") Last result: " ++ lastResult.format ++ "\n" ++ summaryText rest

/-- Text of the steps of one record (lines 140-142). -/
def stepsText : List String → String
  | [] => ""
  | step :: rest => "  " ++ step ++ "\n" ++ stepsText rest

/-- Output at the head of every round of the browsing loop (lines 114-118). -/
def browsePrompt (history : List CalculationRecord) : String :=
  "\nStored calculations:\n" ++ summaryText (listSummaries history) ++
    "Select calculation number to view (0 to return): "

/-- Output for a displayed record (lines 139-143). -/
def recordText (selection : Int) (record : CalculationRecord) : String :=
  "Calculation " ++ intText selection ++ " steps:\n" ++ stepsText record.steps ++ "\n"

/-- The loop of `showHistory` over the remaining input (lines 113-144). -/
def showHistoryLoop (history : List CalculationRecord) : List Token → String → Run Unit
  | [], _ => Run.blocked
  | tok :: rest, out =>
    match tok.asInteger with
    | none =>
      showHistoryLoop history rest
        (out ++ browsePrompt history ++ "Invalid selection. Please enter a number from the list.\n")
    | some selection =>
      if selection = 0 then Run.done () ⟨rest, out ++ browsePrompt history ++ "\n"⟩
      else if selection < 0 ∨ selection.toNat > history.length then
        showHistoryLoop history rest
          (out ++ browsePrompt history ++ "Selection out of range. Try again.\n")
      else
        match history[selection.toNat - 1]? with
        | none => Run.fault
        | some record =>
          showHistoryLoop history rest (out ++ browsePrompt history ++ recordText selection record)

/-- Presents the stored calculations (lines 107-145).  The store is read only. -/
def showHistory (history : List CalculationRecord) (c : Console) : Run Unit :=
  if history.isEmpty then Run.done () (c.print "Memory is empty.\n")
  else showHistoryLoop history c.input c.output

/-- The local variables of `main`. -/
structure MainState where
  result : Double
  history : List CalculationRecord
  currentRecordIndex : Nat
  deriving DecidableEq, Repr

/-- The part of `main` before the loop (lines 151-160). -/
def start (c : Console) : Run MainState :=
  match promptForNumber "the first number"
      ((c.print "Simple Calculator\n").print "-----------------\n") with
  | Run.done result c1 =>
    let history : List CalculationRecord := [] ++ [createInitialRecord result]
    Run.done ⟨result, history, history.length - 1⟩
      (c1.print ("Current result: " ++ result.format ++ "\n"))
  | Run.blocked => Run.blocked
  | Run.fault => Run.fault

/-- How one pass through the body of the loop ends. -/
inductive Pass where
  | again (s : MainState) (console : Console)
  | quit (s : MainState) (console : Console)
  | blocked
  | fault
  deriving DecidableEq, Repr

/-- One pass through the body of the `while` loop of `main` (lines 163-190). -/
def loopBody (s : MainState) (c : Console) : Pass :=
  match promptForOperation c with
  | Run.blocked => Pass.blocked
  | Run.fault => Pass.fault
  | Run.done operation c1 =>
    if operation = 'q' ∨ operation = 'Q' then Pass.quit s c1
    else if operation = 'n' ∨ operation = 'N' then
      match promptForNumber "the first number" c1 with
      | Run.blocked => Pass.blocked
      | Run.fault => Pass.fault
      | Run.done result c2 =>
        let history := s.history ++ [createInitialRecord result]
        Pass.again ⟨result, history, history.length - 1⟩
          (c2.print ("Current result: " ++ result.format ++ "\n"))
    else if operation = 'm' ∨ operation = 'M' then
      match showHistory s.history c1 with
      | Run.blocked => Pass.blocked
      | Run.fault => Pass.fault
      | Run.done _ c2 => Pass.again s c2
    else
      match promptForNumber "the next number" c1 with
      | Run.blocked => Pass.blocked
      | Run.fault => Pass.fault
      | Run.done nextNumber c2 =>
        let previousResult := s.result
        match calculate s.result nextNumber operation with
        | Except.ok result =>
          match s.history[s.currentRecordIndex]? with
          | none => Pass.fault
          | some record =>
            Pass.again
              ⟨result,
                s.history.set s.currentRecordIndex
                  (appendStep record previousResult operation nextNumber result),
                s.currentRecordIndex⟩
              (c2.print ("Result: " ++ result.format ++ "\n"))
        | Except.error what => Pass.again s (c2.print ("Error: " ++ what ++ "\n"))

/-- State and console after `k` further passes through the loop body, when each of them
comes back to the operation prompt. -/
def passes : Nat → MainState → Console → Option (MainState × Console)
  | 0, s, c => some (s, c)
  | k + 1, s, c =>
    match loopBody s c with
    | Pass.again s1 c1 => passes k s1 c1
    | _ => none

/-- State and console on the `k`-th return of `main` to the operation prompt (`k = 0` is
the first arrival), when the run gets that far. -/
def atPrompt (c : Console) (k : Nat) : Option (MainState × Console) :=
  match start c with
  | Run.done s c1 => passes k s c1
  | _ => none

/-- The loop of `main` (lines 162-191), followed by the farewell and the exit status
(lines 193-194). -/
def mainLoop : Nat → MainState → Console → Run Int
  | 0, _, _ => Run.blocked
  | fuel + 1, s, c =>
    match loopBody s c with
    | Pass.again s1 c1 => mainLoop fuel s1 c1
    | Pass.quit _ c1 => Run.done 0 (c1.print "Goodbye!\n")
    | Pass.blocked => Run.blocked
    | Pass.fault => Run.fault

/-- The program.  Every pass reads at least one item, so `input.length + 1` passes
suffice. -/
def main (c : Console) : Run Int :=
  match start c with
  | Run.done s c1 => mainLoop (c1.input.length + 1) s c1
  | Run.blocked => Run.blocked
  | Run.fault => Run.fault

/-! ## Properties stated about the program -/

/-- The state of `main` at the operation prompt is consistent: the store is not empty, the
active index is that of the last record, and the running result is the active record's
`lastResult`. -/
def PromptInv (s : MainState) : Prop :=
  s.history ≠ [] ∧ s.currentRecordIndex = s.history.length - 1 ∧
    ∃ record, s.history[s.currentRecordIndex]? = some record ∧ record.lastResult = s.result

/-- A record is consistent: its steps start with the seed entry, and its last step is
either that seed entry, written from `lastResult`, or an operation entry that ends in
` = ` followed by the text of `lastResult`. -/
def RecordInv (record : CalculationRecord) : Prop :=
  ∃ seed rest, record.steps = ("Start: " ++ Double.format seed) :: rest ∧
    (rest = [] → record.lastResult = seed) ∧
    (rest ≠ [] → ∃ previous op operand,
      rest.getLast? = some (Double.format previous ++ " " ++ String.singleton op ++ " " ++
        Double.format operand ++ " = " ++ record.lastResult.format))

/-- The store `after` extends the store `before`: no record is lost or moved, the steps of
every record only grow at the end, and every record except the one at index `active` is
the same. -/
def Grows (before after : List CalculationRecord) (active : Nat) : Prop :=
  before.length ≤ after.length ∧
    ∀ i record, before[i]? = some record →
      ∃ record', after[i]? = some record' ∧ record.steps <+: record'.steps ∧
        (i ≠ active → record' = record)

/-- The log the specification expects: starting from the running value `r`, each operation
`(op, x)` in turn is evaluated on the previous result and described by
`previous op operand = result`.  Yields the entries and the last result, or `none` when an
evaluation fails. -/
def expectedSteps : Double → List (Char × Double) → Option (List String × Double)
  | r, [] => some ([], r)
  | r, (op, x) :: more =>
    match calculate r x op with
    | Except.ok r1 =>
      match expectedSteps r1 more with
      | some (steps, final) =>
        some ((r.format ++ " " ++ String.singleton op ++ " " ++ x.format ++ " = " ++ r1.format)
          :: steps, final)
      | none => none
    | Except.error _ => none

/-- Console input that enters the given operations, each as an operator and an operand. -/
def operationInput : List (Char × Double) → List Token
  | [] => []
  | (op, x) :: more => Token.character op :: Token.number x :: operationInput more

/-! ## The arithmetic evaluator -/

/-- `x == 0.0` holds exactly for the finite doubles of value zero. -/
theorem isZero_iff_value (x : Double) : x.isZero = true ↔ x.value = some 0 := by
  cases x with
  | nan => simp [Double.isZero, Double.value]
  | inf s => simp [Double.isZero, Double.value]
  | fin s m e =>
    have h2 : (2 : ℚ) ^ e ≠ 0 := zpow_ne_zero _ (by norm_num)
    cases s <;> simp [Double.isZero, Double.value, Double.signFactor, h2]

/-- C1: `calculate` throws exactly for a division by zero, a modulo by zero or a selector
outside the five operators; the message says which, the three messages differ, and
`+`, `-`, `*` return for all operands.  `rhs == 0.0` is the test for numeric zero. -/
theorem calculate_fails_exactly (lhs rhs : Double) (op : Char) :
    ((∃ what, calculate lhs rhs op = Except.error what) ↔
        (op = '/' ∧ rhs.isZero = true) ∨ (op = '%' ∧ rhs.isZero = true) ∨
          ¬ (op = '+' ∨ op = '-' ∨ op = '*' ∨ op = '/' ∨ op = '%')) ∧
      (rhs.isZero = true ↔ rhs.value = some 0) ∧
      (rhs.isZero = true →
        calculate lhs rhs '/' = Except.error "Division by zero is undefined." ∧
          calculate lhs rhs '%' = Except.error "Modulo by zero is undefined.") ∧
      (¬ (op = '+' ∨ op = '-' ∨ op = '*' ∨ op = '/' ∨ op = '%') →
        calculate lhs rhs op = Except.error "Unsupported operation.") ∧
      (calculate lhs rhs '+' = Except.ok (lhs.add rhs) ∧
        calculate lhs rhs '-' = Except.ok (lhs.sub rhs) ∧
        calculate lhs rhs '*' = Except.ok (lhs.mul rhs)) ∧
      ("Division by zero is undefined." ≠ "Modulo by zero is undefined." ∧
        "Division by zero is undefined." ≠ "Unsupported operation." ∧
        "Modulo by zero is undefined." ≠ "Unsupported operation.") := by
  refine ⟨?_, isZero_iff_value rhs, ?_, ?_, ?_, by decide⟩
  · by_cases h1 : op = '+'
    · subst h1; simp [calculate]
    by_cases h2 : op = '-'
    · subst h2; simp [calculate]
    by_cases h3 : op = '*'
    · subst h3; simp [calculate]
    by_cases h4 : op = '/'
    · subst h4; cases hz : rhs.isZero <;> simp [calculate, hz]
    by_cases h5 : op = '%'
    · subst h5; cases hz : rhs.isZero <;> simp [calculate, hz]
    simp [calculate, h1, h2, h3, h4, h5]
  · intro hz
    simp [calculate, hz]
  · intro h
    simp only [not_or] at h
    simp [calculate, h.1, h.2.1, h.2.2.1, h.2.2.2.1, h.2.2.2.2]
  · simp [calculate]

/-- C1, at `8 / 0` and `8 % 0`: both throw, with different messages. -/
theorem calculate_eight_by_zero :
    calculate (Double.ofInt 8) (Double.ofInt 0) '/' =
        Except.error "Division by zero is undefined." ∧
      calculate (Double.ofInt 8) (Double.ofInt 0) '%' =
        Except.error "Modulo by zero is undefined." :=
  (calculate_fails_exactly (Double.ofInt 8) (Double.ofInt 0) '/').2.2.1 (by decide)

/-! ### The remainder -/

theorem value_fin (s : Bool) (m : Nat) (e : Int) :
    (Double.fin s m e).value = some (Double.signFactor s * (m : ℚ) * (2 : ℚ) ^ e) := rfl

/-- Renormalising keeps the value. -/
theorem renormalize_value (s : Bool) (m : Nat) (e : Int) :
    (Double.renormalize s m e).value = some (Double.signFactor s * (m : ℚ) * (2 : ℚ) ^ e) := by
  unfold Double.renormalize
  split
  · next h => subst h; simp [Double.value]
  · simp only [value_fin]
    congr 1
    have h2 : (2 : ℚ) ≠ 0 := by norm_num
    rw [zpow_sub₀ h2, zpow_natCast]
    push_cast
    field_simp
    ring

/-- Renormalising keeps the sign bit. -/
theorem renormalize_signBit (s : Bool) (m : Nat) (e : Int) :
    (Double.renormalize s m e).signBit = some s := by
  unfold Double.renormalize
  split <;> rfl

/-- Bringing a mantissa to a smaller exponent keeps the value. -/
theorem aligned_value (s : Bool) (m : Nat) (e g : Int) (h : g ≤ e) :
    Double.signFactor s * (m : ℚ) * (2 : ℚ) ^ e =
      Double.signFactor s * ((m * 2 ^ (e - g).toNat : Nat) : ℚ) * (2 : ℚ) ^ g := by
  have h2 : (2 : ℚ) ≠ 0 := by norm_num
  have he : e = g + ((e - g).toNat : Int) := by
    rw [Int.toNat_of_nonneg (by omega)]; ring
  conv_lhs => rw [he, zpow_add₀ h2, zpow_natCast]
  push_cast
  ring

theorem truncate_neg (q : ℚ) : truncate (-q) = -truncate q := by
  unfold truncate
  rcases lt_trichotomy q 0 with h | h | h
  · have h1 : (0 : ℚ) ≤ -q := by linarith
    have h2 : ¬ (0 : ℚ) ≤ q := by linarith
    simp only [h1, h2, if_true, if_false, Int.floor_neg]
  · subst h; simp
  · have h1 : ¬ (0 : ℚ) ≤ -q := by linarith
    have h2 : (0 : ℚ) ≤ q := by linarith
    simp only [h1, h2, if_true, if_false, Int.ceil_neg]

theorem truncate_natCast_div (A B : Nat) :
    truncate ((A : ℚ) / (B : ℚ)) = ((A / B : Nat) : Int) := by
  have hnn : (0 : ℚ) ≤ (A : ℚ) / B := by positivity
  have := Rat.floor_intCast_div_natCast (A : ℤ) B
  simp only [truncate, hnn, if_true]
  simpa using this

/-- On finite operands with a non-zero divisor `fmod` computes the remainder of the
specification. -/
theorem fmod_fin_isRemainder (s t : Bool) (m n : Nat) (e f : Int) (hn : n ≠ 0) :
    IsRemainder (Double.fin s m e) (Double.fin t n f)
      (Double.fmod (Double.fin s m e) (Double.fin t n f)) := by
  have h2 : (0 : ℚ) < 2 := by norm_num
  set g := min e f with hg
  set A := m * 2 ^ (e - g).toNat with hA
  set B := n * 2 ^ (f - g).toNat with hB
  have hG : (0 : ℚ) < (2 : ℚ) ^ g := zpow_pos h2 g
  have hBpos : 0 < B := Nat.mul_pos (Nat.pos_of_ne_zero hn) (pow_pos (by norm_num) _)
  have hBq : (0 : ℚ) < (B : ℚ) := by exact_mod_cast hBpos
  have hR : A % B < B := Nat.mod_lt _ hBpos
  have hRq : ((A % B : Nat) : ℚ) < (B : ℚ) := by exact_mod_cast hR
  have hRnn : (0 : ℚ) ≤ ((A % B : Nat) : ℚ) := by positivity
  have hdm : ((A % B : Nat) : ℚ) + (B : ℚ) * ((A / B : Nat) : ℚ) = (A : ℚ) := by
    exact_mod_cast Nat.mod_add_div A B
  have hRA : ((A % B : Nat) : ℚ) ≤ (A : ℚ) := by exact_mod_cast Nat.mod_le A B
  have hx : (Double.fin s m e).value = some (Double.signFactor s * (A : ℚ) * (2 : ℚ) ^ g) := by
    rw [value_fin, aligned_value s m e g (min_le_left e f)]
  have hy : (Double.fin t n f).value = some (Double.signFactor t * (B : ℚ) * (2 : ℚ) ^ g) := by
    rw [value_fin, aligned_value t n f g (min_le_right e f)]
  have hr : (Double.fmod (Double.fin s m e) (Double.fin t n f)).value =
      some (Double.signFactor s * ((A % B : Nat) : ℚ) * (2 : ℚ) ^ g) := by
    simp only [Double.fmod, hn, if_false]
    exact renormalize_value s _ _
  refine ⟨_, _, _, hx, hy, hr, ?_, ?_, ?_⟩
  · have htr : ((truncate ((A : ℚ) / (B : ℚ)) : ℤ) : ℚ) = ((A / B : Nat) : ℚ) := by
      rw [truncate_natCast_div, Int.cast_natCast]
    have htn : ((truncate (-((A : ℚ) / (B : ℚ))) : ℤ) : ℚ) = -((A / B : Nat) : ℚ) := by
      rw [truncate_neg, truncate_natCast_div, Int.cast_neg, Int.cast_natCast]
    have hG0 : (2 : ℚ) ^ g ≠ 0 := ne_of_gt hG
    have hB0 : (B : ℚ) ≠ 0 := ne_of_gt hBq
    cases s <;> cases t <;>
      simp only [Double.signFactor, if_true, if_false, Bool.false_eq_true]
    · have : (1 * (A : ℚ) * (2 : ℚ) ^ g) / (1 * (B : ℚ) * (2 : ℚ) ^ g) = (A : ℚ) / B := by
        field_simp; ring
      rw [this, htr]; linear_combination (2 : ℚ) ^ g * hdm
    · have : (1 * (A : ℚ) * (2 : ℚ) ^ g) / (-1 * (B : ℚ) * (2 : ℚ) ^ g) = -((A : ℚ) / B) := by
        field_simp; ring
      rw [this, htn]; linear_combination (2 : ℚ) ^ g * hdm
    · have : (-1 * (A : ℚ) * (2 : ℚ) ^ g) / (1 * (B : ℚ) * (2 : ℚ) ^ g) = -((A : ℚ) / B) := by
        field_simp; ring
      rw [this, htn]; linear_combination -(2 : ℚ) ^ g * hdm
    · have : (-1 * (A : ℚ) * (2 : ℚ) ^ g) / (-1 * (B : ℚ) * (2 : ℚ) ^ g) = (A : ℚ) / B := by
        field_simp; ring
      rw [this, htr]; linear_combination -(2 : ℚ) ^ g * hdm
  · have h1 : |Double.signFactor s * ((A % B : Nat) : ℚ) * (2 : ℚ) ^ g| =
        ((A % B : Nat) : ℚ) * (2 : ℚ) ^ g := by
      cases s <;> simp [Double.signFactor, abs_mul, abs_of_nonneg hRnn, abs_of_pos hG]
    have h3 : |Double.signFactor t * (B : ℚ) * (2 : ℚ) ^ g| = (B : ℚ) * (2 : ℚ) ^ g := by
      cases t <;> simp [Double.signFactor, abs_mul, abs_of_pos hG]
    rw [h1, h3]
    exact mul_lt_mul_of_pos_right hRq hG
  · by_cases h0 : A % B = 0
    · left; simp [h0]
    · right
      have hRpos : (0 : ℚ) < ((A % B : Nat) : ℚ) := by
        exact_mod_cast Nat.pos_of_ne_zero h0
      have hApos : (0 : ℚ) < (A : ℚ) := lt_of_lt_of_le hRpos hRA
      have : Double.signFactor s * ((A % B : Nat) : ℚ) * (2 : ℚ) ^ g *
          (Double.signFactor s * (A : ℚ) * (2 : ℚ) ^ g) =
          ((A % B : Nat) : ℚ) * (A : ℚ) * ((2 : ℚ) ^ g * (2 : ℚ) ^ g) := by
        cases s <;> simp [Double.signFactor] <;> ring
      rw [this]
      positivity

/-- C3, refuted as stated: the divisor `3` is not zero and the left operand is the
infinity that `1e308 * 10` overflows to, yet the modulo returns NaN, which is no number and
so no remainder of the specification.  The run `1e308`, `* 10`, `% 3` of the program leaves
NaN as the running result.  Hence not every non-zero divisor yields a remainder. -/
theorem modulo_of_infinity_not_remainder :
    (Double.ofInt 3).isZero = false ∧
      calculate (Double.ofRatio false (10 ^ 308) 1) (Double.ofInt 10) '*' =
        Except.ok (Double.inf false) ∧
      calculate (Double.inf false) (Double.ofInt 3) '%' = Except.ok Double.nan ∧
      ¬ IsRemainder (Double.inf false) (Double.ofInt 3) Double.nan ∧
      (atPrompt ⟨[Token.number (Double.ofRatio false (10 ^ 308) 1), Token.character '*',
          Token.number (Double.ofInt 10), Token.character '%',
          Token.number (Double.ofInt 3)], ""⟩ 2).map (fun p => p.1.result) =
        some Double.nan ∧
      ¬ ∀ a b : Double, b.isZero = false →
        ∃ r, calculate a b '%' = Except.ok r ∧ IsRemainder a b r := by
  have hnot : ¬ IsRemainder (Double.inf false) (Double.ofInt 3) Double.nan := by
    rintro ⟨x, y, z, hx, -⟩
    simp [Double.value] at hx
  have hcalc : calculate (Double.inf false) (Double.ofInt 3) '%' = Except.ok Double.nan :=
    congrArg Except.ok (by decide)
  refine ⟨by decide, congrArg Except.ok (by decide), hcalc, hnot, by decide, ?_⟩
  intro hall
  obtain ⟨r, hr, hrem⟩ := hall (Double.inf false) (Double.ofInt 3) (by decide)
  rw [hcalc] at hr
  rw [← Except.ok.inj hr] at hrem
  exact hnot hrem

/-- C3, amended: for every divisor that does not compare equal to zero the modulo returns
a value; when both operands are finite that value is the remainder of the specification
(`a - q * b` with `q` the quotient truncated toward zero, of magnitude below that of `b`,
zero or of the sign of `a`) and carries the sign bit of `a`; it is NaN when `a` is not
finite or `b` is NaN, and `a` itself when `a` is finite and `b` infinite. -/
theorem calculate_modulo_remainder (a b : Double) (hz : b.isZero = false) :
    ∃ r, calculate a b '%' = Except.ok r ∧
      (a.value.isSome = true → b.value.isSome = true →
        IsRemainder a b r ∧ r.signBit = a.signBit) ∧
      (a.value = none → r = Double.nan) ∧
      (b = Double.nan → r = Double.nan) ∧
      (a.value.isSome = true → ∀ s, b = Double.inf s → r = a) := by
  refine ⟨a.fmod b, by simp [calculate, hz], ?_, ?_, ?_, ?_⟩
  · intro ha hb
    cases a with
    | nan => simp [Double.value] at ha
    | inf s => simp [Double.value] at ha
    | fin s m e =>
      cases b with
      | nan => simp [Double.value] at hb
      | inf t => simp [Double.value] at hb
      | fin t n f =>
        have hn : n ≠ 0 := by simpa [Double.isZero] using hz
        refine ⟨fmod_fin_isRemainder s t m n e f hn, ?_⟩
        simp only [Double.fmod, hn, if_false]
        exact renormalize_signBit s _ _
  · intro ha
    cases a with
    | nan => cases b <;> rfl
    | inf s => cases b <;> rfl
    | fin s m e => simp [Double.value] at ha
  · intro hb
    subst hb
    cases a <;> rfl
  · intro ha s hb
    subst hb
    cases a with
    | nan => simp [Double.value] at ha
    | inf s => simp [Double.value] at ha
    | fin s m e => rfl

/-- C3, at the operands of the specification: `5 % 3 = 2`, `-7 % 2 = -1`, `7 % -2 = 1`. -/
theorem calculate_modulo_examples :
    (∃ r, calculate (Double.ofInt 5) (Double.ofInt 3) '%' = Except.ok r ∧
      IsRemainder (Double.ofInt 5) (Double.ofInt 3) r ∧
      r.signBit = (Double.ofInt 5).signBit) ∧
    calculate (Double.ofInt 5) (Double.ofInt 3) '%' = Except.ok (Double.ofInt 2) ∧
    calculate (Double.ofInt (-7)) (Double.ofInt 2) '%' = Except.ok (Double.ofInt (-1)) ∧
    calculate (Double.ofInt 7) (Double.ofInt (-2)) '%' = Except.ok (Double.ofInt 1) := by
  refine ⟨?_, congrArg Except.ok (by decide), congrArg Except.ok (by decide),
    congrArg Except.ok (by decide)⟩
  obtain ⟨r, h1, h2, -⟩ :=
    calculate_modulo_remainder (Double.ofInt 5) (Double.ofInt 3) (by decide)
  exact ⟨r, h1, h2 (by decide) (by decide)⟩

/-! ### Rounded arithmetic -/


theorem bitLengthAux_bounds (fuel : Nat) :
    ∀ n : Nat, 0 < n → n ≤ fuel →
      2 ^ (bitLengthAux fuel n - 1) ≤ n ∧ n < 2 ^ bitLengthAux fuel n ∧ 0 < bitLengthAux fuel n := by
  induction fuel with
  | zero => intro n h1 h2; omega
  | succ f ih =>
    intro n h1 h2
    have hn0 : n ≠ 0 := by omega
    simp only [bitLengthAux, hn0, if_false]
    by_cases h : n / 2 = 0
    · have hn1 : n = 1 := by omega
      subst hn1
      cases f <;> simp [bitLengthAux]
    · have hpos : 0 < n / 2 := Nat.pos_of_ne_zero h
      obtain ⟨ha, hb, hc⟩ := ih (n / 2) hpos (by omega)
      refine ⟨?_, ?_, by omega⟩
      · have : bitLengthAux f (n / 2) + 1 - 1 = (bitLengthAux f (n / 2) - 1) + 1 := by omega
        rw [this, pow_succ]
        omega
      · rw [pow_succ]
        omega

theorem bitLength_bounds (n : Nat) (h : 0 < n) :
    2 ^ (bitLength n - 1) ≤ n ∧ n < 2 ^ bitLength n ∧ 0 < bitLength n :=
  bitLengthAux_bounds n n h (le_refl n)

/-- A power of two with an integer exponent, as a quotient of two natural powers. -/
theorem zpow_two_split (l : Int) :
    (2 : ℚ) ^ l = ((2 ^ l.toNat : Nat) : ℚ) / ((2 ^ (-l).toNat : Nat) : ℚ) := by
  rcases le_or_lt 0 l with h | h
  · obtain ⟨k, rfl⟩ := Int.eq_ofNat_of_zero_le h
    simp [zpow_natCast]
  · obtain ⟨k, rfl⟩ : ∃ k : Nat, l = -(k : Int) := ⟨(-l).toNat, by omega⟩
    simp [zpow_neg, zpow_natCast]

/-- The exact quotient after scaling numerator and denominator by a power of two. -/
theorem scaled_ratio (n d : Nat) (e : Int) (hd : 0 < d) :
    ((n * 2 ^ (-e).toNat : Nat) : ℚ) / ((d * 2 ^ e.toNat : Nat) : ℚ) =
      ((n : ℚ) / (d : ℚ)) / (2 : ℚ) ^ e := by
  have hdq : (d : ℚ) ≠ 0 := by exact_mod_cast (Nat.pos_iff_ne_zero.mp hd)
  rw [zpow_two_split e]
  have h1 : ((2 ^ e.toNat : Nat) : ℚ) ≠ 0 := by positivity
  have h2 : ((2 ^ (-e).toNat : Nat) : ℚ) ≠ 0 := by positivity
  push_cast
  field_simp

/-- The rounding step on a quotient `Q` and remainder `r` of a division by `D`. -/
theorem roundStep_nearest (Q r D : Nat) (hD : 0 < D) (hr : r < D) :
    let m := if 2 * r < D then Q else if D < 2 * r then Q + 1 else if Q % 2 = 0 then Q else Q + 1
    |((m : Nat) : ℚ) - ((Q : ℚ) + (r : ℚ) / D)| ≤ 1 / 2 ∧
      (∀ k : ℤ, |((m : Nat) : ℚ) - ((Q : ℚ) + (r : ℚ) / D)| ≤ |(k : ℚ) - ((Q : ℚ) + (r : ℚ) / D)|) ∧
      (∀ k : ℤ, (k : ℚ) ≠ ((m : Nat) : ℚ) →
        |(k : ℚ) - ((Q : ℚ) + (r : ℚ) / D)| = |((m : Nat) : ℚ) - ((Q : ℚ) + (r : ℚ) / D)| →
        m % 2 = 0) ∧
      Q ≤ m ∧ m ≤ Q + 1 := by
  intro m
  have hDq : (0 : ℚ) < (D : ℚ) := by exact_mod_cast hD
  have hrq : (r : ℚ) < (D : ℚ) := by exact_mod_cast hr
  have hr0 : (0 : ℚ) ≤ (r : ℚ) := by positivity
  set ρ : ℚ := (r : ℚ) / D with hρ
  have hρ0 : 0 ≤ ρ := div_nonneg hr0 (le_of_lt hDq)
  have hρ1 : ρ < 1 := by rw [hρ, div_lt_one hDq]; exact hrq
  have hlow : ∀ k : ℤ, ((k : ℚ) ≤ Q ∧ ρ + (Q - k) ≤ |(k : ℚ) - (Q + ρ)|) ∨
      ((Q : ℚ) + 1 ≤ (k : ℚ) ∧ (1 - ρ) + (k - (Q + 1)) ≤ |(k : ℚ) - (Q + ρ)|) := by
    intro k
    rcases le_or_lt k (Q : ℤ) with hk | hk
    · left
      have hkq : (k : ℚ) ≤ Q := by exact_mod_cast hk
      refine ⟨hkq, ?_⟩
      rw [abs_sub_comm]
      have := le_abs_self (((Q : ℚ) + ρ) - (k : ℚ))
      linarith
    · right
      have hk' : (Q : ℤ) + 1 ≤ k := hk
      have hkq : (Q : ℚ) + 1 ≤ (k : ℚ) := by exact_mod_cast hk'
      refine ⟨hkq, ?_⟩
      have := le_abs_self ((k : ℚ) - ((Q : ℚ) + ρ))
      linarith
  have hvalQ : |(Q : ℚ) - ((Q : ℚ) + ρ)| = ρ := by
    rw [show (Q : ℚ) - ((Q : ℚ) + ρ) = -ρ by ring, abs_neg, abs_of_nonneg hρ0]
  have hvalQ1 : |((Q + 1 : Nat) : ℚ) - ((Q : ℚ) + ρ)| = 1 - ρ := by
    push_cast
    rw [show (Q : ℚ) + 1 - ((Q : ℚ) + ρ) = 1 - ρ by ring, abs_of_nonneg (by linarith)]
  by_cases h1 : 2 * r < D
  · have hm : m = Q := if_pos h1
    have hρh : ρ < 1 / 2 := by
      rw [hρ, div_lt_iff₀ hDq]
      have : (2 : ℚ) * (r : ℚ) < (D : ℚ) := by exact_mod_cast h1
      linarith
    rw [hm, hvalQ]
    refine ⟨by linarith, ?_, ?_, le_refl _, Nat.le_succ _⟩
    · intro k
      rcases hlow k with ⟨h, h'⟩ | ⟨h, h'⟩ <;> linarith
    · intro k hne heq
      exfalso
      rcases hlow k with ⟨h, h'⟩ | ⟨h, h'⟩
      · exact hne (by linarith)
      · linarith
  · by_cases h2 : D < 2 * r
    · have hm : m = Q + 1 := by
        show (if 2 * r < D then Q else if D < 2 * r then Q + 1 else _) = _
        rw [if_neg h1, if_pos h2]
      have hρh : 1 / 2 < ρ := by
        rw [hρ, lt_div_iff₀ hDq]
        have : (D : ℚ) < (2 : ℚ) * (r : ℚ) := by exact_mod_cast h2
        linarith
      rw [hm, hvalQ1]
      refine ⟨by linarith, ?_, ?_, Nat.le_succ _, le_refl _⟩
      · intro k
        rcases hlow k with ⟨h, h'⟩ | ⟨h, h'⟩ <;> linarith
      · intro k hne heq
        exfalso
        rcases hlow k with ⟨h, h'⟩ | ⟨h, h'⟩
        · linarith
        · apply hne
          push_cast
          linarith
    · have h3 : 2 * r = D := by omega
      have hρh : ρ = 1 / 2 := by
        rw [hρ, div_eq_iff (ne_of_gt hDq)]
        have : (2 : ℚ) * (r : ℚ) = (D : ℚ) := by exact_mod_cast h3
        linarith
      by_cases h4 : Q % 2 = 0
      · have hm : m = Q := by
          show (if 2 * r < D then Q else if D < 2 * r then Q + 1 else
            if Q % 2 = 0 then Q else Q + 1) = _
          rw [if_neg h1, if_neg h2, if_pos h4]
        rw [hm, hvalQ]
        refine ⟨by linarith, ?_, fun _ _ _ => h4, le_refl _, Nat.le_succ _⟩
        intro k
        rcases hlow k with ⟨h, h'⟩ | ⟨h, h'⟩ <;> linarith
      · have hm : m = Q + 1 := by
          show (if 2 * r < D then Q else if D < 2 * r then Q + 1 else
            if Q % 2 = 0 then Q else Q + 1) = _
          rw [if_neg h1, if_neg h2, if_neg h4]
        rw [hm, hvalQ1]
        refine ⟨by linarith, ?_, fun _ _ _ => by omega, Nat.le_succ _, le_refl _⟩
        intro k
        rcases hlow k with ⟨h, h'⟩ | ⟨h, h'⟩ <;> linarith

/-- `roundHalfEven N D` is an integer nearest to `N / D`, and the even one of two. -/
theorem roundHalfEven_nearest (N D : Nat) (hD : 0 < D) :
    |((roundHalfEven N D : Nat) : ℚ) - (N : ℚ) / D| ≤ 1 / 2 ∧
      (∀ k : ℤ, |((roundHalfEven N D : Nat) : ℚ) - (N : ℚ) / D| ≤ |(k : ℚ) - (N : ℚ) / D|) ∧
      (∀ k : ℤ, (k : ℚ) ≠ ((roundHalfEven N D : Nat) : ℚ) →
        |(k : ℚ) - (N : ℚ) / D| = |((roundHalfEven N D : Nat) : ℚ) - (N : ℚ) / D| →
        roundHalfEven N D % 2 = 0) ∧
      N / D ≤ roundHalfEven N D ∧ roundHalfEven N D ≤ N / D + 1 := by
  have hDq : (0 : ℚ) < (D : ℚ) := by exact_mod_cast hD
  have hdm : ((N % D : Nat) : ℚ) + (D : ℚ) * ((N / D : Nat) : ℚ) = (N : ℚ) := by
    exact_mod_cast Nat.mod_add_div N D
  have ht : (N : ℚ) / D = ((N / D : Nat) : ℚ) + ((N % D : Nat) : ℚ) / D := by
    field_simp
    linarith
  rw [ht]
  exact roundStep_nearest (N / D) (N % D) D hD (Nat.mod_lt _ hD)


theorem natPow_as_zpow (b : Nat) (hb : 0 < b) :
    ((2 ^ (b - 1) : Nat) : ℚ) = (2 : ℚ) ^ ((b : Int) - 1) ∧ ((2 ^ b : Nat) : ℚ) = (2 : ℚ) ^ (b : Int) := by
  constructor
  · have : ((b : Int) - 1) = ((b - 1 : Nat) : Int) := by omega
    rw [this, zpow_natCast]
    push_cast
    rfl
  · rw [zpow_natCast]
    push_cast
    rfl

/-- The binary exponent chosen by `ofRatio` brackets the quotient. -/
theorem exponent_brackets (n d : Nat) (hn : 0 < n) (hd : 0 < d) :
    let l : Int := (bitLength n : Int) - (bitLength d : Int)
    let L : Int := if d * 2 ^ l.toNat ≤ n * 2 ^ (-l).toNat then l else l - 1
    (2 : ℚ) ^ L ≤ (n : ℚ) / d ∧ (n : ℚ) / d < (2 : ℚ) ^ (L + 1) := by
  intro l L
  have hdq : (0 : ℚ) < (d : ℚ) := by exact_mod_cast hd
  have hnq : (0 : ℚ) < (n : ℚ) := by exact_mod_cast hn
  obtain ⟨hn1, hn2, hn3⟩ := bitLength_bounds n hn
  obtain ⟨hd1, hd2, hd3⟩ := bitLength_bounds d hd
  have hn1q : (2 : ℚ) ^ ((bitLength n : Int) - 1) ≤ (n : ℚ) := by
    rw [← (natPow_as_zpow _ hn3).1]; exact_mod_cast hn1
  have hn2q : (n : ℚ) < (2 : ℚ) ^ (bitLength n : Int) := by
    rw [← (natPow_as_zpow _ hn3).2]; exact_mod_cast hn2
  have hd1q : (2 : ℚ) ^ ((bitLength d : Int) - 1) ≤ (d : ℚ) := by
    rw [← (natPow_as_zpow _ hd3).1]; exact_mod_cast hd1
  have hd2q : (d : ℚ) < (2 : ℚ) ^ (bitLength d : Int) := by
    rw [← (natPow_as_zpow _ hd3).2]; exact_mod_cast hd2
  have h2 : (2 : ℚ) ≠ 0 := by norm_num
  have hcheck : (d * 2 ^ l.toNat ≤ n * 2 ^ (-l).toNat) ↔ (2 : ℚ) ^ l ≤ (n : ℚ) / d := by
    rw [zpow_two_split l]
    have hB : (0 : ℚ) < ((2 ^ (-l).toNat : Nat) : ℚ) := by positivity
    rw [div_le_div_iff₀ hB hdq]
    constructor
    · intro h
      have : ((d * 2 ^ l.toNat : Nat) : ℚ) ≤ ((n * 2 ^ (-l).toNat : Nat) : ℚ) := by exact_mod_cast h
      push_cast at this ⊢
      linarith
    · intro h
      have : ((d * 2 ^ l.toNat : Nat) : ℚ) ≤ ((n * 2 ^ (-l).toNat : Nat) : ℚ) := by
        push_cast at h ⊢
        linarith
      exact_mod_cast this
  have hpos : ∀ k : Int, (0 : ℚ) < (2 : ℚ) ^ k := fun k => zpow_pos (by norm_num) k
  by_cases hc : d * 2 ^ l.toNat ≤ n * 2 ^ (-l).toNat
  · have hL : L = l := if_pos hc
    rw [hL]
    refine ⟨hcheck.mp hc, ?_⟩
    -- n / d < 2^bn / 2^(bd-1) = 2^(l+1)
    have : (2 : ℚ) ^ (l + 1) = (2 : ℚ) ^ (bitLength n : Int) / (2 : ℚ) ^ ((bitLength d : Int) - 1) := by
      rw [← zpow_sub₀ h2]
      congr 1
      show (bitLength n : Int) - (bitLength d : Int) + 1 = _
      ring
    rw [this, div_lt_div_iff₀ hdq (hpos _)]
    calc (n : ℚ) * (2 : ℚ) ^ ((bitLength d : Int) - 1)
        ≤ (n : ℚ) * (d : ℚ) := by
          apply mul_le_mul_of_nonneg_left hd1q (le_of_lt hnq)
      _ < (2 : ℚ) ^ (bitLength n : Int) * (d : ℚ) := by
          apply mul_lt_mul_of_pos_right hn2q hdq
  · have hL : L = l - 1 := if_neg hc
    rw [hL]
    have hlt : (n : ℚ) / d < (2 : ℚ) ^ l := by
      by_contra hcon
      exact hc (hcheck.mpr (not_lt.mp hcon))
    refine ⟨?_, by rw [sub_add_cancel]; exact hlt⟩
    have : (2 : ℚ) ^ (l - 1) = (2 : ℚ) ^ ((bitLength n : Int) - 1) / (2 : ℚ) ^ (bitLength d : Int) := by
      rw [← zpow_sub₀ h2]
      congr 1
      show (bitLength n : Int) - (bitLength d : Int) - 1 = _
      ring
    rw [this, div_le_div_iff₀ (hpos _) hdq]
    calc (2 : ℚ) ^ ((bitLength n : Int) - 1) * (d : ℚ)
        ≤ (n : ℚ) * (d : ℚ) := by
          apply mul_le_mul_of_nonneg_right hn1q (le_of_lt hdq)
      _ ≤ (n : ℚ) * (2 : ℚ) ^ (bitLength d : Int) := by
          apply mul_le_mul_of_nonneg_left (le_of_lt hd2q) (le_of_lt hnq)


/-- What `ofRatio` computes on a positive quotient: an exponent `e` and the integer `m0`
nearest to the quotient divided by `2 ^ e`. -/
theorem ofRatio_core (neg : Bool) (n d : Nat) (hn : 0 < n) (hd : 0 < d) :
    ∃ (m0 : Nat) (e : Int),
      -1074 ≤ e ∧ m0 ≤ 2 ^ 53 ∧ (2 ^ 52 ≤ m0 ∨ e = -1074) ∧
      ((2 : ℚ) ^ 52 * (2 : ℚ) ^ e ≤ (n : ℚ) / d ∨ e = -1074) ∧
      (n : ℚ) / d < (2 : ℚ) ^ 53 * (2 : ℚ) ^ e ∧
      |(m0 : ℚ) - (n : ℚ) / d / (2 : ℚ) ^ e| ≤ 1 / 2 ∧
      (∀ k : ℤ, |(m0 : ℚ) - (n : ℚ) / d / (2 : ℚ) ^ e| ≤
        |(k : ℚ) - (n : ℚ) / d / (2 : ℚ) ^ e|) ∧
      (∀ k : ℤ, (k : ℚ) ≠ (m0 : ℚ) →
        |(k : ℚ) - (n : ℚ) / d / (2 : ℚ) ^ e| = |(m0 : ℚ) - (n : ℚ) / d / (2 : ℚ) ^ e| →
        m0 % 2 = 0) ∧
      Double.ofRatio neg n d =
        if m0 = 2 ^ 53 then
          (if e + 1 > 971 then Double.inf neg else Double.fin neg (2 ^ 52) (e + 1))
        else (if e > 971 then Double.inf neg else Double.fin neg m0 e) := by
  obtain ⟨hL1, hL2⟩ := exponent_brackets n d hn hd
  set l : Int := (bitLength n : Int) - (bitLength d : Int) with hl
  set L : Int := if d * 2 ^ l.toNat ≤ n * 2 ^ (-l).toNat then l else l - 1 with hLdef
  set e : Int := max (L - 52) (-1074) with he
  have hDpos : 0 < d * 2 ^ e.toNat := Nat.mul_pos hd (pow_pos (by norm_num) _)
  have hDq : (0 : ℚ) < ((d * 2 ^ e.toNat : Nat) : ℚ) := by exact_mod_cast hDpos
  have h2 : (2 : ℚ) ≠ 0 := by norm_num
  have hG : (0 : ℚ) < (2 : ℚ) ^ e := zpow_pos (by norm_num) e
  have ht := scaled_ratio n d e hd
  obtain ⟨r1, r2, r3, r4, r5⟩ := roundHalfEven_nearest (n * 2 ^ (-e).toNat) (d * 2 ^ e.toNat) hDpos
  rw [ht] at r1 r2 r3
  -- the scaled quotient lies below 2^53, and at or above 2^52 in the normal range
  have hupper : (n : ℚ) / d < (2 : ℚ) ^ 53 * (2 : ℚ) ^ e := by
    have h53 : (2 : ℚ) ^ 53 * (2 : ℚ) ^ e = (2 : ℚ) ^ (e + 53) := by
      rw [zpow_add₀ h2, mul_comm]; norm_num
    rw [h53]
    refine lt_of_lt_of_le hL2 (zpow_le_zpow_right₀ (by norm_num) ?_)
    have : L - 52 ≤ e := le_max_left _ _
    omega
  have hlower : (2 : ℚ) ^ 52 * (2 : ℚ) ^ e ≤ (n : ℚ) / d ∨ e = -1074 := by
    by_cases hcase : -1074 ≤ L - 52
    · left
      have hee : e = L - 52 := max_eq_left hcase
      have h52 : (2 : ℚ) ^ 52 * (2 : ℚ) ^ e = (2 : ℚ) ^ L := by
        rw [hee, zpow_sub₀ h2]
        field_simp
        ring
      rw [h52]
      exact hL1
    · right
      exact max_eq_right (by omega)
  have hsub : e = -1074 ∧ ¬ (-1074 ≤ L - 52) →
      (n : ℚ) / d < (2 : ℚ) ^ 52 * (2 : ℚ) ^ e := by
    intro ⟨hee, hcase⟩
    have h52 : (2 : ℚ) ^ 52 * (2 : ℚ) ^ e = (2 : ℚ) ^ (e + 52) := by
      rw [zpow_add₀ h2, mul_comm]; norm_num
    rw [h52]
    refine lt_of_lt_of_le hL2 (zpow_le_zpow_right₀ (by norm_num) ?_)
    omega
  -- bounds on the Nat quotient
  have hNq : ((n * 2 ^ (-e).toNat : Nat) : ℚ) = (n : ℚ) / d / (2 : ℚ) ^ e * ((d * 2 ^ e.toNat : Nat) : ℚ) := by
    rw [← ht]; field_simp
  have hQlt : (n * 2 ^ (-e).toNat) / (d * 2 ^ e.toNat) < 2 ^ 53 := by
    rw [Nat.div_lt_iff_lt_mul hDpos]
    have : ((n * 2 ^ (-e).toNat : Nat) : ℚ) < ((2 ^ 53 * (d * 2 ^ e.toNat) : Nat) : ℚ) := by
      rw [hNq]
      push_cast
      have : (n : ℚ) / d / (2 : ℚ) ^ e < (2 : ℚ) ^ 53 := by
        rw [div_lt_iff₀ hG]; exact hupper
      have hD' : (0 : ℚ) < (d : ℚ) * (2 : ℚ) ^ e.toNat := by positivity
      exact mul_lt_mul_of_pos_right this hD'
    exact_mod_cast this
  refine ⟨roundHalfEven (n * 2 ^ (-e).toNat) (d * 2 ^ e.toNat), e, le_max_right _ _, by omega, ?_,
    hlower, hupper, r1, r2, r3, ?_⟩
  · by_cases hcase : -1074 ≤ L - 52
    · left
      have hlow : (2 : ℚ) ^ 52 * (2 : ℚ) ^ e ≤ (n : ℚ) / d := by
        rcases hlower with h | h
        · exact h
        · have hee : e = L - 52 := max_eq_left hcase
          have h52 : (2 : ℚ) ^ 52 * (2 : ℚ) ^ e = (2 : ℚ) ^ L := by
            rw [hee, zpow_sub₀ h2]
            field_simp
            ring
          rw [h52]
          exact hL1
      have hQge : 2 ^ 52 ≤ (n * 2 ^ (-e).toNat) / (d * 2 ^ e.toNat) := by
        rw [Nat.le_div_iff_mul_le hDpos]
        have : ((2 ^ 52 * (d * 2 ^ e.toNat) : Nat) : ℚ) ≤ ((n * 2 ^ (-e).toNat : Nat) : ℚ) := by
          rw [hNq]
          push_cast
          have : (2 : ℚ) ^ 52 ≤ (n : ℚ) / d / (2 : ℚ) ^ e := by
            rw [le_div_iff₀ hG]; exact hlow
          have hD' : (0 : ℚ) ≤ (d : ℚ) * (2 : ℚ) ^ e.toNat := by positivity
          exact mul_le_mul_of_nonneg_right this hD'
        exact_mod_cast this
      omega
    · right
      exact max_eq_right (by omega)
  · unfold Double.ofRatio
    rw [if_neg (Nat.pos_iff_ne_zero.mp hn)]


theorem abs_grid (a G q0 : ℚ) (hG : 0 < G) : |a * G - q0| = |a - q0 / G| * G := by
  have : a * G - q0 = (a - q0 / G) * G := by field_simp
  rw [this, abs_mul, abs_of_pos hG]

/-- The multiple `m0 * 2 ^ e` nearest to `q0` on the grid of `2 ^ e` is nearest among all
numbers of the format, and ties only with numbers on that grid. -/
theorem grid_nearest (m0 : Nat) (e : Int) (q0 : ℚ)
    (hlow : (2 : ℚ) ^ 52 * (2 : ℚ) ^ e ≤ q0 ∨ e = -1074)
    (r2 : ∀ k : ℤ, |(m0 : ℚ) - q0 / (2 : ℚ) ^ e| ≤ |(k : ℚ) - q0 / (2 : ℚ) ^ e|)
    (r3 : ∀ k : ℤ, (k : ℚ) ≠ (m0 : ℚ) →
      |(k : ℚ) - q0 / (2 : ℚ) ^ e| = |(m0 : ℚ) - q0 / (2 : ℚ) ^ e| → m0 % 2 = 0)
    (w : ℚ) (mw : Nat) (ew : Int) (hmw : mw < 2 ^ 53) (hew : -1074 ≤ ew)
    (habs : |w| = (mw : ℚ) * (2 : ℚ) ^ ew) :
    |(m0 : ℚ) * (2 : ℚ) ^ e - q0| ≤ |w - q0| ∧
      (w ≠ (m0 : ℚ) * (2 : ℚ) ^ e → |w - q0| = |(m0 : ℚ) * (2 : ℚ) ^ e - q0| → m0 % 2 = 0) := by
  have h2 : (2 : ℚ) ≠ 0 := by norm_num
  have hG : (0 : ℚ) < (2 : ℚ) ^ e := zpow_pos (by norm_num) e
  rcases le_or_lt e ew with hge | hlt
  · -- `w` is on the grid
    have hshift : (2 : ℚ) ^ ew = ((2 ^ (ew - e).toNat : Nat) : ℚ) * (2 : ℚ) ^ e := by
      have : ew = ((ew - e).toNat : Int) + e := by omega
      conv_lhs => rw [this, zpow_add₀ h2, zpow_natCast]
      push_cast
      rfl
    obtain ⟨k, hk⟩ : ∃ k : ℤ, w = (k : ℚ) * (2 : ℚ) ^ e := by
      rcases abs_choice w with hw | hw
      · refine ⟨((mw * 2 ^ (ew - e).toNat : Nat) : ℤ), ?_⟩
        rw [← hw, habs, hshift]
        push_cast
        ring
      · refine ⟨-((mw * 2 ^ (ew - e).toNat : Nat) : ℤ), ?_⟩
        have : w = -|w| := by linarith
        rw [this, habs, hshift]
        push_cast
        ring
    rw [hk, abs_grid _ _ _ hG, abs_grid _ _ _ hG]
    refine ⟨mul_le_mul_of_nonneg_right (r2 k) (le_of_lt hG), ?_⟩
    intro hne heq
    apply r3 k
    · intro hkm
      apply hne
      rw [hkm]
    · exact mul_right_cancel₀ (ne_of_gt hG) heq
  · -- `w` is below the binade of `q0`
    have he : e ≠ -1074 := by omega
    have hlow' : (2 : ℚ) ^ 52 * (2 : ℚ) ^ e ≤ q0 := by
      rcases hlow with h | h
      · exact h
      · exact absurd h he
    have hwlt : |w| < (2 : ℚ) ^ 52 * (2 : ℚ) ^ e := by
      rw [habs]
      have h1 : (mw : ℚ) < (2 : ℚ) ^ 53 := by exact_mod_cast hmw
      have h3 : (2 : ℚ) ^ ew ≤ (2 : ℚ) ^ (e - 1) :=
        zpow_le_zpow_right₀ (by norm_num) (by omega)
      have h4 : (2 : ℚ) ^ (e - 1) = (2 : ℚ) ^ e / 2 := by
        rw [zpow_sub₀ h2]; norm_num
      have hpos : (0 : ℚ) < (2 : ℚ) ^ ew := zpow_pos (by norm_num) ew
      calc (mw : ℚ) * (2 : ℚ) ^ ew < (2 : ℚ) ^ 53 * (2 : ℚ) ^ ew :=
            mul_lt_mul_of_pos_right h1 hpos
        _ ≤ (2 : ℚ) ^ 53 * ((2 : ℚ) ^ e / 2) := by
            rw [← h4]
            exact mul_le_mul_of_nonneg_left h3 (by norm_num)
        _ = (2 : ℚ) ^ 52 * (2 : ℚ) ^ e := by ring
    have hgrid : |(m0 : ℚ) * (2 : ℚ) ^ e - q0| ≤ q0 - (2 : ℚ) ^ 52 * (2 : ℚ) ^ e := by
      have h5 : |(m0 : ℚ) - q0 / (2 : ℚ) ^ e| * (2 : ℚ) ^ e ≤
          |(2 : ℚ) ^ 52 - q0 / (2 : ℚ) ^ e| * (2 : ℚ) ^ e := by
        have := r2 (2 ^ 52)
        push_cast at this
        exact mul_le_mul_of_nonneg_right this (le_of_lt hG)
      rw [← abs_grid _ _ _ hG, ← abs_grid _ _ _ hG] at h5
      rw [abs_sub_comm ((2 : ℚ) ^ 52 * (2 : ℚ) ^ e) q0,
        abs_of_nonneg (show (0 : ℚ) ≤ q0 - (2 : ℚ) ^ 52 * (2 : ℚ) ^ e by linarith)] at h5
      exact h5
    have hfar : q0 - (2 : ℚ) ^ 52 * (2 : ℚ) ^ e < |w - q0| := by
      have h6 := abs_sub_abs_le_abs_sub q0 w
      rw [abs_sub_comm q0 w] at h6
      have h7 := le_abs_self q0
      linarith
    refine ⟨by linarith, ?_⟩
    intro _ heq
    linarith


theorem signFactor_cases (s : Bool) :
    (Double.signFactor s = 1 ∧ s = false) ∨ (Double.signFactor s = -1 ∧ s = true) := by
  cases s <;> simp [Double.signFactor]

/-- Nearness to a signed quotient, from nearness of the magnitudes. -/
theorem signed_nearest (σ : ℚ) (hσ : σ = 1 ∨ σ = -1) (m0 : Nat) (e : Int) (q0 : ℚ)
    (hlow : (2 : ℚ) ^ 52 * (2 : ℚ) ^ e ≤ q0 ∨ e = -1074)
    (r2 : ∀ k : ℤ, |(m0 : ℚ) - q0 / (2 : ℚ) ^ e| ≤ |(k : ℚ) - q0 / (2 : ℚ) ^ e|)
    (r3 : ∀ k : ℤ, (k : ℚ) ≠ (m0 : ℚ) →
      |(k : ℚ) - q0 / (2 : ℚ) ^ e| = |(m0 : ℚ) - q0 / (2 : ℚ) ^ e| → m0 % 2 = 0)
    (w : ℚ) (hw : Representable w) :
    |σ * ((m0 : ℚ) * (2 : ℚ) ^ e) - σ * q0| ≤ |w - σ * q0| ∧
      (w ≠ σ * ((m0 : ℚ) * (2 : ℚ) ^ e) →
        |w - σ * q0| = |σ * ((m0 : ℚ) * (2 : ℚ) ^ e) - σ * q0| → m0 % 2 = 0) := by
  obtain ⟨mw, ew, hmw, hew, -, habs⟩ := hw
  have hσ2 : σ * σ = 1 := by rcases hσ with h | h <;> rw [h] <;> norm_num
  have hσabs : |σ| = 1 := by rcases hσ with h | h <;> rw [h] <;> norm_num
  have hz : |σ * ((m0 : ℚ) * (2 : ℚ) ^ e) - σ * q0| = |(m0 : ℚ) * (2 : ℚ) ^ e - q0| := by
    rw [← mul_sub, abs_mul, hσabs, one_mul]
  have hwq : |w - σ * q0| = |σ * w - q0| := by
    have : σ * w - q0 = σ * (w - σ * q0) := by
      have : σ * (σ * q0) = q0 := by rw [← mul_assoc, hσ2, one_mul]
      rw [mul_sub, this]
    rw [this, abs_mul, hσabs, one_mul]
  have habs' : |σ * w| = (mw : ℚ) * (2 : ℚ) ^ ew := by rw [abs_mul, hσabs, one_mul, habs]
  obtain ⟨ha, hb⟩ := grid_nearest m0 e q0 hlow r2 r3 (σ * w) mw ew hmw hew habs'
  rw [hz, hwq]
  refine ⟨ha, ?_⟩
  intro hne heq
  apply hb _ heq
  intro h
  apply hne
  rw [← h, ← mul_assoc, hσ2, one_mul]

/-- `ofRatio` rounds a non-zero quotient to nearest, ties to even, with overflow to
infinity. -/
theorem ofRatio_isRounded (neg : Bool) (n d : Nat) (hn : 0 < n) (hd : 0 < d) :
    IsRounded (Double.signFactor neg * ((n : ℚ) / d)) (Double.ofRatio neg n d) := by
  obtain ⟨m0, e, he, hm53, hcanon, hlow, hupper, r1, r2, r3, hres⟩ := ofRatio_core neg n d hn hd
  have hq0 : (0 : ℚ) < (n : ℚ) / d := by positivity
  set q0 : ℚ := (n : ℚ) / d with hq0def
  have hG : (0 : ℚ) < (2 : ℚ) ^ e := zpow_pos (by norm_num) e
  have h2 : (2 : ℚ) ≠ 0 := by norm_num
  -- the rounding error in units of the grid
  have herr : |(m0 : ℚ) * (2 : ℚ) ^ e - q0| ≤ (2 : ℚ) ^ e / 2 := by
    rw [abs_grid _ _ _ hG]
    have := mul_le_mul_of_nonneg_right r1 (le_of_lt hG)
    linarith
  have hσ := signFactor_cases neg
  have habsq : |Double.signFactor neg * q0| = q0 := by
    rcases hσ with ⟨h, -⟩ | ⟨h, -⟩ <;> rw [h] <;> simp [abs_of_pos hq0]
  have hdec : decide (Double.signFactor neg * q0 < 0) = neg := by
    rcases hσ with ⟨h, hs⟩ | ⟨h, hs⟩
    · rw [h, hs]; simp; linarith
    · rw [h, hs]; simp; linarith
  have hm53q : (m0 : ℚ) ≤ (2 : ℚ) ^ 53 := by exact_mod_cast hm53
  constructor
  · intro hfin
    rw [habsq] at hfin
    have he971 : e ≤ 971 := by
      by_contra hcon
      have he' : e ≠ -1074 := by omega
      have hl : (2 : ℚ) ^ 52 * (2 : ℚ) ^ e ≤ q0 := by
        rcases hlow with h | h
        · exact h
        · exact absurd h he'
      have hmono : (2 : ℚ) ^ (972 : ℤ) ≤ (2 : ℚ) ^ e :=
        zpow_le_zpow_right₀ (by norm_num) (by omega)
      have hnum : (2 : ℚ) ^ 52 * (2 : ℚ) ^ (972 : ℤ) = 2 ^ 1024 := by norm_num
      have hp : (0 : ℚ) < (2 : ℚ) ^ 970 := by positivity
      nlinarith
    have hsigns : (Double.signFactor neg * q0 < 0 → neg = true) ∧
        (0 < Double.signFactor neg * q0 → neg = false) := by
      rcases hσ with ⟨h, hs⟩ | ⟨h, hs⟩
      · rw [h, hs]; constructor
        · intro hh; linarith
        · intro _; rfl
      · rw [h, hs]; constructor
        · intro _; rfl
        · intro hh; linarith
    have hσ' : Double.signFactor neg = 1 ∨ Double.signFactor neg = -1 := by
      rcases hσ with ⟨h, -⟩ | ⟨h, -⟩
      · exact Or.inl h
      · exact Or.inr h
    by_cases hm : m0 = 2 ^ 53
    · have he970 : e ≤ 970 := by
        by_contra hcon
        have hee : e = 971 := by omega
        rw [hee, hm] at herr
        have hnum : ((2 ^ 53 : Nat) : ℚ) * (2 : ℚ) ^ (971 : ℤ) - (2 : ℚ) ^ (971 : ℤ) / 2 =
            2 ^ 1024 - 2 ^ 970 := by norm_num
        have := (abs_le.mp herr).2
        linarith
      refine ⟨neg, 2 ^ 52, e + 1, ?_, by norm_num, by omega, by omega, Or.inl (le_refl _),
        hsigns.1, hsigns.2, ?_, fun _ _ _ _ => by norm_num⟩
      · rw [hres, if_pos hm, if_neg (by omega)]
      · intro w hw
        have hval : Double.signFactor neg * ((2 ^ 52 : Nat) : ℚ) * (2 : ℚ) ^ (e + 1) =
            Double.signFactor neg * ((m0 : ℚ) * (2 : ℚ) ^ e) := by
          rw [hm, zpow_add₀ h2]
          push_cast
          ring
        rw [hval]
        exact (signed_nearest _ hσ' m0 e q0 hlow r2 r3 w hw).1
    · have hmlt : m0 < 2 ^ 53 := by omega
      refine ⟨neg, m0, e, ?_, hmlt, he, he971, hcanon, hsigns.1, hsigns.2, ?_, ?_⟩
      · rw [hres, if_neg hm, if_neg (by omega)]
      · intro w hw
        rw [mul_assoc]
        exact (signed_nearest _ hσ' m0 e q0 hlow r2 r3 w hw).1
      · intro w hw
        rw [mul_assoc]
        exact (signed_nearest _ hσ' m0 e q0 hlow r2 r3 w hw).2
  · intro hinf
    rw [habsq] at hinf
    rw [hdec]
    have he971 : 971 ≤ e := by
      by_contra hcon
      have hmono : (2 : ℚ) ^ e ≤ (2 : ℚ) ^ (970 : ℤ) :=
        zpow_le_zpow_right₀ (by norm_num) (by omega)
      have hnum : (2 : ℚ) ^ 53 * (2 : ℚ) ^ (970 : ℤ) < 2 ^ 1024 - 2 ^ 970 := by norm_num
      have : (2 : ℚ) ^ 53 * (2 : ℚ) ^ e ≤ (2 : ℚ) ^ 53 * (2 : ℚ) ^ (970 : ℤ) :=
        mul_le_mul_of_nonneg_left hmono (by norm_num)
      linarith
    by_cases hbig : 972 ≤ e
    · rw [hres]
      by_cases hm : m0 = 2 ^ 53
      · rw [if_pos hm, if_pos (by omega)]
      · rw [if_neg hm, if_pos (by omega)]
    · have hee : e = 971 := by omega
      have hm : m0 = 2 ^ 53 := by
        by_contra hm
        have hmle : m0 ≤ 2 ^ 53 - 1 := by omega
        have hmleq : (m0 : ℚ) ≤ (2 : ℚ) ^ 53 - 1 := by
          have : ((m0 : Nat) : ℚ) ≤ ((2 ^ 53 - 1 : Nat) : ℚ) := by exact_mod_cast hmle
          have h' : ((2 ^ 53 - 1 : Nat) : ℚ) = (2 : ℚ) ^ 53 - 1 := by norm_num
          linarith
        rw [hee] at herr r2 r3
        have hP : (2 : ℚ) ^ (971 : ℤ) = 2 ^ 971 := by norm_num
        have hT : (2 : ℚ) ^ 1024 - 2 ^ 970 = ((2 : ℚ) ^ 53 - 1 / 2) * 2 ^ 971 := by norm_num
        have hPpos : (0 : ℚ) < 2 ^ 971 := by positivity
        rw [hP] at herr r2 r3
        have h1 := (abs_le.mp herr).1
        -- so `m0 = 2^53 - 1` and the quotient is exactly half way
        have hmge : (2 : ℚ) ^ 53 - 1 ≤ (m0 : ℚ) := by
          by_contra hc
          have hc' : (m0 : ℚ) < (2 : ℚ) ^ 53 - 1 := not_le.mp hc
          have hmnat : m0 + 1 ≤ 2 ^ 53 - 1 := by
            have : ((m0 : Nat) : ℚ) < ((2 ^ 53 - 1 : Nat) : ℚ) := by
              have h' : ((2 ^ 53 - 1 : Nat) : ℚ) = (2 : ℚ) ^ 53 - 1 := by norm_num
              linarith
            have : m0 < 2 ^ 53 - 1 := by exact_mod_cast this
            omega
          have hmq : (m0 : ℚ) + 1 ≤ (2 : ℚ) ^ 53 - 1 := by
            have : ((m0 + 1 : Nat) : ℚ) ≤ ((2 ^ 53 - 1 : Nat) : ℚ) := by exact_mod_cast hmnat
            have h' : ((2 ^ 53 - 1 : Nat) : ℚ) = (2 : ℚ) ^ 53 - 1 := by norm_num
            push_cast at this
            linarith
          nlinarith
        have hmeq : (m0 : ℚ) = (2 : ℚ) ^ 53 - 1 := le_antisymm hmleq hmge
        have hqeq : q0 = ((2 : ℚ) ^ 53 - 1 / 2) * 2 ^ 971 := by
          apply le_antisymm
          · rw [hmeq] at h1
            nlinarith
          · linarith
        have hodd : m0 % 2 = 0 := by
          apply r3 (2 ^ 53)
          · push_cast
            rw [hmeq]
            norm_num
          · push_cast
            rw [hmeq, hqeq]
            norm_num
        have hmnat : m0 = 2 ^ 53 - 1 := by
          have : ((m0 : Nat) : ℚ) = ((2 ^ 53 - 1 : Nat) : ℚ) := by
            rw [hmeq]; norm_num
          exact_mod_cast this
        rw [hmnat] at hodd
        norm_num at hodd
      rw [hres, if_pos hm, if_pos (by omega)]


theorem isRounded_zero (s : Bool) : IsRounded 0 (Double.fin s 0 (-1074)) := by
  constructor
  · intro _
    refine ⟨s, 0, -1074, rfl, by norm_num, le_refl _, by norm_num, Or.inr rfl,
      fun h => absurd h (lt_irrefl _), fun h => absurd h (lt_irrefl _), ?_, fun _ _ _ _ => rfl⟩
    intro w _
    simp
  · intro h
    exfalso
    rw [abs_zero] at h
    have : (0 : ℚ) < 2 ^ 1024 - 2 ^ 970 := by norm_num
    linarith

theorem ofRatio_zero (neg : Bool) (d : Nat) : Double.ofRatio neg 0 d = Double.fin neg 0 (-1074) := by
  simp [Double.ofRatio]

/-- `ofRatio` rounds every quotient, zero included. -/
theorem ofRatio_isRounded' (neg : Bool) (n d : Nat) (hd : 0 < d) (q : ℚ)
    (hq : q = Double.signFactor neg * ((n : ℚ) / d)) :
    IsRounded q (Double.ofRatio neg n d) := by
  rcases Nat.eq_zero_or_pos n with h0 | hn
  · subst h0
    rw [hq, ofRatio_zero]
    simp only [Nat.cast_zero, zero_div, mul_zero]
    exact isRounded_zero neg
  · rw [hq]
    exact ofRatio_isRounded neg n d hn hd

theorem signedMantissa_cast (s : Bool) (m : Nat) :
    ((Double.signedMantissa s m : Int) : ℚ) = Double.signFactor s * (m : ℚ) := by
  cases s <;> simp [Double.signedMantissa, Double.signFactor]

theorem signFactor_xor (s t : Bool) :
    Double.signFactor (xor s t) = Double.signFactor s * Double.signFactor t := by
  cases s <;> cases t <;> simp [Double.signFactor]

theorem signFactor_not (s : Bool) : Double.signFactor (!s) = -Double.signFactor s := by
  cases s <;> simp [Double.signFactor]

theorem signFactor_decide_natAbs (c : Int) :
    Double.signFactor (decide (c < 0)) * ((c.natAbs : Nat) : ℚ) = (c : ℚ) := by
  rw [Nat.cast_natAbs]
  rcases lt_or_le c 0 with h | h
  · rw [abs_of_neg h]
    simp [Double.signFactor, h]
  · rw [abs_of_nonneg h]
    simp [Double.signFactor, not_lt.mpr h]

/-- The sum of two finite doubles is the exact sum, rounded. -/
theorem add_fin_isRounded (s t : Bool) (m n : Nat) (e f : Int) :
    IsRounded (Double.signFactor s * (m : ℚ) * (2 : ℚ) ^ e +
        Double.signFactor t * (n : ℚ) * (2 : ℚ) ^ f)
      ((Double.fin s m e).add (Double.fin t n f)) ∧
    (Double.signFactor s * (m : ℚ) * (2 : ℚ) ^ e +
        Double.signFactor t * (n : ℚ) * (2 : ℚ) ^ f = 0 →
      (Double.fin s m e).add (Double.fin t n f) = Double.fin (s && t) 0 (-1074)) := by
  set g := min e f with hg
  set c : Int := Double.signedMantissa s (m * 2 ^ (e - g).toNat) +
    Double.signedMantissa t (n * 2 ^ (f - g).toNat) with hc
  have hG : (0 : ℚ) < (2 : ℚ) ^ g := zpow_pos (by norm_num) g
  have hsum : Double.signFactor s * (m : ℚ) * (2 : ℚ) ^ e +
      Double.signFactor t * (n : ℚ) * (2 : ℚ) ^ f = (c : ℚ) * (2 : ℚ) ^ g := by
    rw [aligned_value s m e g (min_le_left e f), aligned_value t n f g (min_le_right e f), hc]
    push_cast
    rw [signedMantissa_cast, signedMantissa_cast]
    push_cast
    ring
  have hadd : (Double.fin s m e).add (Double.fin t n f) =
      if c = 0 then Double.fin (s && t) 0 (-1074)
      else Double.ofRatio (decide (c < 0)) (c.natAbs * 2 ^ g.toNat) (2 ^ (-g).toNat) := rfl
  rw [hsum, hadd]
  by_cases h0 : c = 0
  · rw [if_pos h0, h0]
    simp only [Int.cast_zero, zero_mul]
    exact ⟨isRounded_zero _, fun _ => trivial⟩
  · rw [if_neg h0]
    constructor
    · apply ofRatio_isRounded' _ _ _ (pow_pos (by norm_num) _)
      rw [← signFactor_decide_natAbs c, zpow_two_split g]
      push_cast
      ring
    · intro hz
      exfalso
      have : (c : ℚ) = 0 := by
        rcases mul_eq_zero.mp hz with h | h
        · exact h
        · exact absurd h (ne_of_gt hG)
      exact h0 (by exact_mod_cast this)

/-- The product of two finite doubles is the exact product, rounded. -/
theorem mul_fin_isRounded (s t : Bool) (m n : Nat) (e f : Int) :
    IsRounded ((Double.signFactor s * (m : ℚ) * (2 : ℚ) ^ e) *
        (Double.signFactor t * (n : ℚ) * (2 : ℚ) ^ f))
      ((Double.fin s m e).mul (Double.fin t n f)) := by
  have h2 : (2 : ℚ) ≠ 0 := by norm_num
  have hmul : (Double.fin s m e).mul (Double.fin t n f) =
      Double.ofRatio (xor s t) (m * n * 2 ^ (e + f).toNat) (2 ^ (-(e + f)).toNat) := rfl
  rw [hmul]
  apply ofRatio_isRounded' _ _ _ (pow_pos (by norm_num) _)
  have hs := zpow_two_split (e + f)
  rw [signFactor_xor]
  push_cast at hs ⊢
  rw [mul_div_assoc, ← hs, zpow_add₀ h2 e f]
  ring

/-- The quotient of two finite doubles, the divisor not zero, is the exact quotient,
rounded. -/
theorem div_fin_isRounded (s t : Bool) (m n : Nat) (e f : Int) (hn : n ≠ 0) :
    IsRounded ((Double.signFactor s * (m : ℚ) * (2 : ℚ) ^ e) /
        (Double.signFactor t * (n : ℚ) * (2 : ℚ) ^ f))
      ((Double.fin s m e).div (Double.fin t n f)) := by
  have h2 : (2 : ℚ) ≠ 0 := by norm_num
  have hnq : (n : ℚ) ≠ 0 := by exact_mod_cast hn
  have hdiv : (Double.fin s m e).div (Double.fin t n f) =
      Double.ofRatio (xor s t) (m * 2 ^ (e - f).toNat) (n * 2 ^ (f - e).toNat) := by
    simp only [Double.div, hn, if_false]
  rw [hdiv]
  apply ofRatio_isRounded' _ _ _ (Nat.mul_pos (Nat.pos_of_ne_zero hn) (pow_pos (by norm_num) _))
  have hsplit := zpow_two_split (e - f)
  have hneg : -(e - f) = f - e := by ring
  rw [hneg] at hsplit
  have hef : (2 : ℚ) ^ e / (2 : ℚ) ^ f = (2 : ℚ) ^ (e - f) := (zpow_sub₀ h2 e f).symm
  have hB : ((2 ^ (f - e).toNat : Nat) : ℚ) ≠ 0 := by positivity
  have hF : (2 : ℚ) ^ f ≠ 0 := zpow_ne_zero _ h2
  rw [signFactor_xor]
  have hst : Double.signFactor t ≠ 0 := by cases t <;> simp [Double.signFactor]
  have ht2 : Double.signFactor t * Double.signFactor t = 1 := by
    cases t <;> simp [Double.signFactor]
  have key : (Double.signFactor s * (m : ℚ) * (2 : ℚ) ^ e) /
      (Double.signFactor t * (n : ℚ) * (2 : ℚ) ^ f) =
      Double.signFactor s * Double.signFactor t * ((m : ℚ) / n * ((2 : ℚ) ^ e / (2 : ℚ) ^ f)) := by
    field_simp
    have : Double.signFactor s * ↑m * 2 ^ e * (↑n * 2 ^ f) =
        Double.signFactor s * (Double.signFactor t * Double.signFactor t) * (↑m * 2 ^ e) * (↑n * 2 ^ f) := by
      rw [ht2]; ring
    rw [this]; ring
  rw [key, hef, hsplit]
  push_cast
  field_simp

/-! ## The session store and the loop of `main` -/


theorem promptForNumberLoop_ne_fault (label : String) (input : List Token) (out : String) :
    promptForNumberLoop label input out ≠ Run.fault := by
  induction input generalizing out with
  | nil => simp [promptForNumberLoop]
  | cons tok rest ih =>
    unfold promptForNumberLoop
    split
    · simp
    · exact ih _

theorem promptForOperationLoop_ne_fault (input : List Token) (out : String) :
    promptForOperationLoop input out ≠ Run.fault := by
  induction input generalizing out with
  | nil => simp [promptForOperationLoop]
  | cons tok rest ih =>
    unfold promptForOperationLoop
    split
    · split
      · simp
      · exact ih _
    · exact ih _

theorem showHistoryLoop_ne_fault (history : List CalculationRecord) (input : List Token)
    (out : String) : showHistoryLoop history input out ≠ Run.fault := by
  induction input generalizing out with
  | nil => simp [showHistoryLoop]
  | cons tok rest ih =>
    unfold showHistoryLoop
    split
    · exact ih _
    · next selection _ =>
      split
      · simp
      · split
        · exact ih _
        · next h0 hr =>
          have hlt : selection.toNat - 1 < history.length := by
            simp only [not_or, not_lt, Nat.not_lt] at hr
            omega
          rw [List.getElem?_eq_getElem hlt]
          exact ih _

theorem loopBody_quit (s : MainState) (c c1 : Console) (op : Char)
    (hop : promptForOperation c = Run.done op c1) (h : op = 'q' ∨ op = 'Q') :
    loopBody s c = Pass.quit s c1 := by
  simp [loopBody, hop, h]

theorem loopBody_new (s : MainState) (c c1 c2 : Console) (op : Char) (seed : Double)
    (hop : promptForOperation c = Run.done op c1) (h : op = 'n' ∨ op = 'N')
    (hseed : promptForNumber "the first number" c1 = Run.done seed c2) :
    loopBody s c =
      Pass.again ⟨seed, s.history ++ [createInitialRecord seed], s.history.length⟩
        (c2.print ("Current result: " ++ seed.format ++ "\n")) := by
  rcases h with rfl | rfl <;> simp [loopBody, hop, hseed]

theorem loopBody_memory (s : MainState) (c c1 c2 : Console) (op : Char) (u : Unit)
    (hop : promptForOperation c = Run.done op c1) (h : op = 'm' ∨ op = 'M')
    (hshow : showHistory s.history c1 = Run.done u c2) :
    loopBody s c = Pass.again s c2 := by
  rcases h with rfl | rfl <;> simp [loopBody, hop, hshow]

theorem loopBody_operator_ok (s : MainState) (c c1 c2 : Console) (op : Char) (x r : Double)
    (record : CalculationRecord)
    (hop : promptForOperation c = Run.done op c1)
    (hq : ¬ (op = 'q' ∨ op = 'Q')) (hn : ¬ (op = 'n' ∨ op = 'N')) (hm : ¬ (op = 'm' ∨ op = 'M'))
    (hx : promptForNumber "the next number" c1 = Run.done x c2)
    (hcalc : calculate s.result x op = Except.ok r)
    (hrec : s.history[s.currentRecordIndex]? = some record) :
    loopBody s c =
      Pass.again
        ⟨r, s.history.set s.currentRecordIndex (appendStep record s.result op x r),
          s.currentRecordIndex⟩
        (c2.print ("Result: " ++ r.format ++ "\n")) := by
  simp only [loopBody, hop, hq, hn, hm, if_false, hx, hcalc, hrec]

theorem loopBody_operator_error (s : MainState) (c c1 c2 : Console) (op : Char) (x : Double)
    (what : String)
    (hop : promptForOperation c = Run.done op c1)
    (hq : ¬ (op = 'q' ∨ op = 'Q')) (hn : ¬ (op = 'n' ∨ op = 'N')) (hm : ¬ (op = 'm' ∨ op = 'M'))
    (hx : promptForNumber "the next number" c1 = Run.done x c2)
    (hcalc : calculate s.result x op = Except.error what) :
    loopBody s c = Pass.again s (c2.print ("Error: " ++ what ++ "\n")) := by
  simp only [loopBody, hop, hq, hn, hm, if_false, hx, hcalc]

theorem loopBody_again (s s' : MainState) (c c' : Console)
    (h : loopBody s c = Pass.again s' c') :
    (∃ seed op c1, promptForOperation c = Run.done op c1 ∧ (op = 'n' ∨ op = 'N') ∧
        s' = ⟨seed, s.history ++ [createInitialRecord seed], s.history.length⟩) ∨
      s' = s ∨
      ∃ op x r record, calculate s.result x op = Except.ok r ∧
        s.history[s.currentRecordIndex]? = some record ∧
        s' = ⟨r, s.history.set s.currentRecordIndex (appendStep record s.result op x r),
          s.currentRecordIndex⟩ := by
  unfold loopBody at h
  split at h
  · simp at h
  · simp at h
  · next operation c1 hop =>
    split at h
    · simp at h
    split at h
    · next hn =>
      split at h
      · simp at h
      · simp at h
      · next result c2 _ =>
        left
        refine ⟨result, operation, c1, hop, hn, ?_⟩
        simp only [Pass.again.injEq] at h
        rw [← h.1]
        simp
    split at h
    · split at h
      · simp at h
      · simp at h
      · right; left
        simp only [Pass.again.injEq] at h
        exact h.1.symm
    · split at h
      · simp at h
      · simp at h
      · next nextNumber c2 _ =>
        split at h
        · next result hcalc =>
          split at h
          · simp at h
          · next record hrec =>
            right; right
            simp only [Pass.again.injEq] at h
            exact ⟨operation, nextNumber, result, record, hcalc, hrec, h.1.symm⟩
        · right; left
          simp only [Pass.again.injEq] at h
          exact h.1.symm


theorem recordInv_create (v : Double) : RecordInv (createInitialRecord v) :=
  ⟨v, [], by simp [createInitialRecord], fun _ => rfl, fun h => absurd rfl h⟩

theorem recordInv_append (record : CalculationRecord) (p : Double) (op : Char) (x n : Double)
    (h : RecordInv record) : RecordInv (appendStep record p op x n) := by
  obtain ⟨seed, rest, hsteps, -, -⟩ := h
  refine ⟨seed, rest ++ [p.format ++ " " ++ String.singleton op ++ " " ++ x.format ++ " = " ++
    n.format], ?_, ?_, ?_⟩
  · simp [appendStep, hsteps]
  · intro h; simp at h
  · intro _
    exact ⟨p, op, x, by simp [appendStep]⟩

theorem promptInv_start (c : Console) (s : MainState) (c1 : Console)
    (h : start c = Run.done s c1) :
    PromptInv s ∧ ∀ record ∈ s.history, RecordInv record := by
  unfold start at h
  split at h
  · next result c2 _ =>
    simp only [Run.done.injEq] at h
    rw [← h.1]
    refine ⟨⟨by simp, by simp, createInitialRecord result, by simp, rfl⟩, ?_⟩
    intro record hrec
    simp at hrec
    rw [hrec]
    exact recordInv_create result
  · simp at h
  · simp at h

theorem promptInv_step (s s' : MainState) (c c' : Console)
    (h : loopBody s c = Pass.again s' c') (hinv : PromptInv s) : PromptInv s' := by
  rcases loopBody_again s s' c c' h with ⟨seed, -, -, -, -, rfl⟩ | rfl | ⟨op, x, r, record, -, hrec, rfl⟩
  · refine ⟨by simp, by simp, createInitialRecord seed, by simp, rfl⟩
  · exact hinv
  · obtain ⟨hne, hidx, -⟩ := hinv
    have hlt : s.currentRecordIndex < s.history.length := by
      have := List.length_pos.mpr hne
      omega
    refine ⟨?_, by simpa using hidx, appendStep record s.result op x r, ?_, rfl⟩
    · intro h0
      exact hne (by simpa using h0)
    · simp [hlt]

theorem recordInv_step (s s' : MainState) (c c' : Console)
    (h : loopBody s c = Pass.again s' c') (hinv : ∀ record ∈ s.history, RecordInv record) :
    ∀ record ∈ s'.history, RecordInv record := by
  rcases loopBody_again s s' c c' h with ⟨seed, -, -, -, -, rfl⟩ | rfl | ⟨op, x, r, record, -, hrec, rfl⟩
  · intro record hmem
    simp only [List.mem_append, List.mem_singleton] at hmem
    rcases hmem with hmem | rfl
    · exact hinv record hmem
    · exact recordInv_create seed
  · exact hinv
  · intro record' hmem
    rcases List.mem_or_eq_of_mem_set hmem with hmem | rfl
    · exact hinv record' hmem
    · exact recordInv_append record _ _ _ _ (hinv record (List.getElem?_mem hrec))

theorem inv_passes (k : Nat) (s s' : MainState) (c c' : Console)
    (h : passes k s c = some (s', c')) (hp : PromptInv s)
    (hr : ∀ record ∈ s.history, RecordInv record) :
    PromptInv s' ∧ ∀ record ∈ s'.history, RecordInv record := by
  induction k generalizing s c with
  | zero =>
    simp only [passes, Option.some.injEq, Prod.mk.injEq] at h
    rw [← h.1]
    exact ⟨hp, hr⟩
  | succ k ih =>
    unfold passes at h
    split at h
    · next s1 c1 hstep =>
      exact ih s1 c1 h (promptInv_step s s1 c c1 hstep hp) (recordInv_step s s1 c c1 hstep hr)
    · simp at h

theorem inv_atPrompt (c0 : Console) (k : Nat) (s : MainState) (c : Console)
    (h : atPrompt c0 k = some (s, c)) :
    PromptInv s ∧ ∀ record ∈ s.history, RecordInv record := by
  unfold atPrompt at h
  split at h
  · next s0 c1 hstart =>
    obtain ⟨hp, hr⟩ := promptInv_start c0 s0 c1 hstart
    exact inv_passes k s0 s c1 c h hp hr
  · simp at h


theorem grows_step (s s' : MainState) (c c' : Console)
    (h : loopBody s c = Pass.again s' c') :
    Grows s.history s'.history s'.currentRecordIndex ∧
      Grows s.history s'.history s.currentRecordIndex ∧
      (s'.currentRecordIndex = s.currentRecordIndex ∨
        s'.currentRecordIndex = s.history.length) := by
  rcases loopBody_again s s' c c' h with ⟨seed, -, -, -, -, rfl⟩ | hs | ⟨op, x, r, record, -, hrec, rfl⟩
  · have key : ∀ (i : Nat) (record : CalculationRecord), s.history[i]? = some record →
        ∃ record' : CalculationRecord,
          (s.history ++ [createInitialRecord seed])[i]? = some record' ∧
          record.steps <+: record'.steps ∧ record' = record := by
      intro i record hi
      have hlt : i < s.history.length := (List.getElem?_eq_some.mp hi).1
      exact ⟨record, by rw [List.getElem?_append_left hlt, hi], List.prefix_refl _, rfl⟩
    refine ⟨⟨by simp, ?_⟩, ⟨by simp, ?_⟩, Or.inr rfl⟩
    · intro i record hi
      obtain ⟨r', h1, h2, h3⟩ := key i record hi
      exact ⟨r', h1, h2, fun _ => h3⟩
    · intro i record hi
      obtain ⟨r', h1, h2, h3⟩ := key i record hi
      exact ⟨r', h1, h2, fun _ => h3⟩
  · have key : Grows s.history s.history s.currentRecordIndex :=
      ⟨le_refl _, fun i record hi => ⟨record, hi, List.prefix_refl _, fun _ => rfl⟩⟩
    rw [hs]
    exact ⟨key, key, Or.inl rfl⟩
  · have key : Grows s.history
        (s.history.set s.currentRecordIndex (appendStep record s.result op x r))
        s.currentRecordIndex := by
      refine ⟨by simp, ?_⟩
      intro i record0 hi
      by_cases hidx : i = s.currentRecordIndex
      · subst hidx
        have hlt : s.currentRecordIndex < s.history.length := (List.getElem?_eq_some.mp hi).1
        have heq : record0 = record := by
          rw [hrec] at hi
          exact (Option.some.inj hi).symm
        subst heq
        refine ⟨appendStep record0 s.result op x r, by simp [hlt], ?_, fun h => absurd rfl h⟩
        simp [appendStep]
      · refine ⟨record0, ?_, List.prefix_refl _, fun _ => rfl⟩
        rw [List.getElem?_set_ne (Ne.symm hidx), hi]
    exact ⟨key, key, Or.inl rfl⟩

theorem grows_passes (k : Nat) (s s' : MainState) (c c' : Console)
    (h : passes k s c = some (s', c')) :
    Grows s.history s'.history s.currentRecordIndex := by
  induction k generalizing s c with
  | zero =>
    simp only [passes, Option.some.injEq, Prod.mk.injEq] at h
    rw [← h.1]
    exact ⟨le_refl _, fun i record hi => ⟨record, hi, List.prefix_refl _, fun _ => rfl⟩⟩
  | succ k ih =>
    unfold passes at h
    split at h
    · next s1 c1 hstep =>
      obtain ⟨-, ⟨hlen, hrecs⟩, hidx⟩ := grows_step s s1 c c1 hstep
      obtain ⟨hlen', hrecs'⟩ := ih s1 c1 h
      refine ⟨le_trans hlen hlen', ?_⟩
      intro i record hi
      obtain ⟨r1, h1, hp1, hu1⟩ := hrecs i record hi
      obtain ⟨r2, h2, hp2, hu2⟩ := hrecs' i r1 h1
      refine ⟨r2, h2, hp1.trans hp2, ?_⟩
      intro hne
      have hlt : i < s.history.length := (List.getElem?_eq_some.mp hi).1
      have hne1 : i ≠ s1.currentRecordIndex := by
        rcases hidx with h0 | h0 <;> omega
      rw [hu2 hne1, hu1 hne]
    · simp at h

theorem listSummariesFrom_getElem? (history : List CalculationRecord) (i j : Nat) :
    (listSummariesFrom i history)[j]? =
      (history[j]?).map (fun record => (i + j + 1, record.lastResult)) := by
  induction history generalizing i j with
  | nil => simp [listSummariesFrom]
  | cons record rest ih =>
    cases j with
    | zero => simp [listSummariesFrom]
    | succ j =>
      simp only [listSummariesFrom, List.getElem?_cons_succ, ih]
      congr 1
      funext record
      congr 1
      omega


theorem listSummariesFrom_append (history : List CalculationRecord) (record : CalculationRecord)
    (i : Nat) :
    listSummariesFrom i (history ++ [record]) =
      listSummariesFrom i history ++ [(i + history.length + 1, record.lastResult)] := by
  induction history generalizing i with
  | nil => simp [listSummariesFrom]
  | cons head rest ih =>
    have harith : i + 1 + rest.length + 1 = i + (rest.length + 1) + 1 := by omega
    have htail := ih (i + 1)
    rw [harith] at htail
    show (i + 1, head.lastResult) :: listSummariesFrom (i + 1) (rest ++ [record]) = _
    rw [htail]
    rfl

theorem operator_not_command (op : Char)
    (h : op = '+' ∨ op = '-' ∨ op = '*' ∨ op = '/' ∨ op = '%') :
    isMenuChoice op = true ∧ ¬ (op = 'q' ∨ op = 'Q') ∧ ¬ (op = 'n' ∨ op = 'N') ∧
      ¬ (op = 'm' ∨ op = 'M') := by
  rcases h with rfl | rfl | rfl | rfl | rfl <;> decide

theorem passes_operations (ops : List (Char × Double)) :
    ∀ (r : Double) (prior : List CalculationRecord) (st : List String) (rest : List Token)
      (out : String) (steps : List String) (final : Double),
      (∀ p ∈ ops, p.1 = '+' ∨ p.1 = '-' ∨ p.1 = '*' ∨ p.1 = '/' ∨ p.1 = '%') →
      expectedSteps r ops = some (steps, final) →
      steps.length = ops.length ∧
      ∃ out', passes ops.length ⟨r, prior ++ [⟨st, r⟩], prior.length⟩
          ⟨operationInput ops ++ rest, out⟩ =
        some (⟨final, prior ++ [⟨st ++ steps, final⟩], prior.length⟩, ⟨rest, out'⟩) := by
  induction ops with
  | nil =>
    intro r prior st rest out steps final _ hexp
    simp only [expectedSteps, Option.some.injEq, Prod.mk.injEq] at hexp
    obtain ⟨rfl, rfl⟩ := hexp
    exact ⟨rfl, out, by simp [passes, operationInput]⟩
  | cons p more ih =>
    intro r prior st rest out steps final hops hexp
    obtain ⟨op, x⟩ := p
    have hop := operator_not_command op (hops (op, x) (List.mem_cons_self _ _))
    unfold expectedSteps at hexp
    split at hexp
    · next r1 hcalc =>
      split at hexp
      · next steps1 final1 hrest =>
        simp only [Option.some.injEq, Prod.mk.injEq] at hexp
        obtain ⟨rfl, rfl⟩ := hexp
        obtain ⟨hlen, out', hrun⟩ := ih r1 prior
          (st ++ [r.format ++ " " ++ String.singleton op ++ " " ++ x.format ++ " = " ++ r1.format])
          rest ((out ++ operationPrompt ++ "Enter " ++ "the next number" ++ ": ") ++
            ("Result: " ++ r1.format ++ "\n")) steps1 final1
          (fun q hq => hops q (List.mem_cons_of_mem _ hq)) hrest
        refine ⟨by simp [hlen], out', ?_⟩
        have hstep : loopBody ⟨r, prior ++ [⟨st, r⟩], prior.length⟩
            ⟨operationInput ((op, x) :: more) ++ rest, out⟩ =
            Pass.again ⟨r1, prior ++ [⟨st ++ [r.format ++ " " ++ String.singleton op ++ " " ++
                x.format ++ " = " ++ r1.format], r1⟩], prior.length⟩
              ⟨operationInput more ++ rest,
                (out ++ operationPrompt ++ "Enter " ++ "the next number" ++ ": ") ++
                  ("Result: " ++ r1.format ++ "\n")⟩ := by
          rw [loopBody_operator_ok _ _ ⟨Token.number x :: (operationInput more ++ rest),
              out ++ operationPrompt⟩ ⟨operationInput more ++ rest,
              out ++ operationPrompt ++ "Enter " ++ "the next number" ++ ": "⟩ op x r1 ⟨st, r⟩
            (by simp [promptForOperation, promptForOperationLoop, operationInput,
              Token.asCharacter, hop.1])
            hop.2.1 hop.2.2.1 hop.2.2.2
            (by simp [promptForNumber, promptForNumberLoop, Token.asNumber])
            hcalc (by simp)]
          simp [appendStep, Console.print]
        simp only [List.length_cons, passes, hstep]
        simpa using hrun
      · simp at hexp
    · simp at hexp

theorem loopBody_quit_state (s s' : MainState) (c c' : Console)
    (h : loopBody s c = Pass.quit s' c') : s' = s := by
  unfold loopBody at h
  split at h
  · simp at h
  · simp at h
  · split at h
    · simp only [Pass.quit.injEq] at h
      exact h.1.symm
    split at h
    · split at h <;> simp at h
    split at h
    · split at h <;> simp at h
    · split at h
      · simp at h
      · simp at h
      · split at h
        · split at h <;> simp at h
        · simp at h

theorem showHistory_ne_fault (history : List CalculationRecord) (c : Console) :
    showHistory history c ≠ Run.fault := by
  unfold showHistory
  split
  · simp
  · exact showHistoryLoop_ne_fault history _ _

theorem loopBody_ne_fault (s : MainState) (c : Console)
    (hrec : ∃ record, s.history[s.currentRecordIndex]? = some record) :
    loopBody s c ≠ Pass.fault := by
  obtain ⟨record, hrec⟩ := hrec
  unfold loopBody
  split
  · simp
  · next hop => exact absurd hop (promptForOperationLoop_ne_fault _ _)
  · split
    · simp
    split
    · split
      · simp
      · next hx => exact absurd hx (promptForNumberLoop_ne_fault _ _ _)
      · simp
    split
    · split
      · simp
      · next hx => exact absurd hx (showHistory_ne_fault _ _)
      · simp
    · split
      · simp
      · next hx => exact absurd hx (promptForNumberLoop_ne_fault _ _ _)
      · split
        · rw [hrec]
          simp
        · simp

/-! ## Termination of the loop -/

theorem promptForNumberLoop_consumes (label : String) (input : List Token) (out : String)
    (v : Double) (c : Console) (h : promptForNumberLoop label input out = Run.done v c) :
    c.input.length < input.length := by
  induction input generalizing out with
  | nil => simp [promptForNumberLoop] at h
  | cons tok rest ih =>
    unfold promptForNumberLoop at h
    split at h
    · simp only [Run.done.injEq] at h
      rw [← h.2]
      simp
    · have := ih _ h
      simp only [List.length_cons]
      omega

theorem promptForOperationLoop_consumes (input : List Token) (out : String)
    (op : Char) (c : Console) (h : promptForOperationLoop input out = Run.done op c) :
    c.input.length < input.length := by
  induction input generalizing out with
  | nil => simp [promptForOperationLoop] at h
  | cons tok rest ih =>
    unfold promptForOperationLoop at h
    split at h
    · split at h
      · simp only [Run.done.injEq] at h
        rw [← h.2]
        simp
      · have := ih _ h
        simp only [List.length_cons]
        omega
    · have := ih _ h
      simp only [List.length_cons]
      omega

theorem showHistoryLoop_consumes (history : List CalculationRecord) (input : List Token)
    (out : String) (u : Unit) (c : Console)
    (h : showHistoryLoop history input out = Run.done u c) :
    c.input.length < input.length := by
  induction input generalizing out with
  | nil => simp [showHistoryLoop] at h
  | cons tok rest ih =>
    unfold showHistoryLoop at h
    split at h
    · have := ih _ h
      simp only [List.length_cons]
      omega
    · split at h
      · simp only [Run.done.injEq] at h
        rw [← h.2]
        simp
      · split at h
        · have := ih _ h
          simp only [List.length_cons]
          omega
        · split at h
          · simp at h
          · have := ih _ h
            simp only [List.length_cons]
            omega

theorem showHistory_consumes (history : List CalculationRecord) (c0 : Console) (u : Unit)
    (c : Console) (h : showHistory history c0 = Run.done u c) :
    c.input.length ≤ c0.input.length := by
  unfold showHistory at h
  split at h
  · simp only [Run.done.injEq] at h
    rw [← h.2]
    simp [Console.print]
  · exact Nat.le_of_lt (showHistoryLoop_consumes history _ _ u c h)

/-- Every pass that comes back to the operation prompt has read at least one item. -/
theorem loopBody_consumes (s s' : MainState) (c c' : Console)
    (h : loopBody s c = Pass.again s' c') : c'.input.length < c.input.length := by
  unfold loopBody at h
  split at h
  · simp at h
  · simp at h
  · next operation c1 hop =>
    have h1 : c1.input.length < c.input.length :=
      promptForOperationLoop_consumes _ _ operation c1 hop
    split at h
    · simp at h
    split at h
    · split at h
      · simp at h
      · simp at h
      · next result c2 hx =>
        have h2 := promptForNumberLoop_consumes _ _ _ result c2 hx
        simp only [Pass.again.injEq] at h
        rw [← h.2]
        simp only [Console.print]
        omega
    split at h
    · split at h
      · simp at h
      · simp at h
      · next u c2 hx =>
        have h2 := showHistory_consumes _ _ u c2 hx
        simp only [Pass.again.injEq] at h
        rw [← h.2]
        omega
    · split at h
      · simp at h
      · simp at h
      · next nextNumber c2 hx =>
        have h2 := promptForNumberLoop_consumes _ _ _ nextNumber c2 hx
        split at h
        · split at h
          · simp at h
          · simp only [Pass.again.injEq] at h
            rw [← h.2]
            simp only [Console.print]
            omega
        · simp only [Pass.again.injEq] at h
          rw [← h.2]
          simp only [Console.print]
          omega

/-- The loop of `main` needs no more passes than there are items of input: any two
amounts of fuel above the length of the input give the same outcome. -/
theorem mainLoop_fuel (fuel1 : Nat) :
    ∀ (fuel2 : Nat) (s : MainState) (c : Console),
      c.input.length < fuel1 → c.input.length < fuel2 →
      mainLoop fuel1 s c = mainLoop fuel2 s c := by
  induction fuel1 with
  | zero => intro fuel2 s c h1; omega
  | succ f ih =>
    intro fuel2 s c h1 h2
    cases fuel2 with
    | zero => omega
    | succ g =>
      unfold mainLoop
      cases hstep : loopBody s c with
      | again s1 c1 =>
        have := loopBody_consumes s s1 c c1 hstep
        exact ih g s1 c1 (by omega) (by omega)
      | quit s1 c1 => rfl
      | blocked => rfl
      | fault => rfl

theorem mainLoop_passes (k : Nat) :
    ∀ (s0 s : MainState) (c1 c : Console) (fuel : Nat),
      passes k s0 c1 = some (s, c) → c1.input.length < fuel →
      mainLoop fuel s0 c1 = mainLoop (c.input.length + 1) s c := by
  induction k with
  | zero =>
    intro s0 s c1 c fuel h hfuel
    simp only [passes, Option.some.injEq, Prod.mk.injEq] at h
    rw [← h.1, ← h.2]
    exact mainLoop_fuel fuel _ s0 c1 hfuel (Nat.lt_succ_self _)
  | succ k ih =>
    intro s0 s c1 c fuel h hfuel
    unfold passes at h
    split at h
    · next s1 c2 hstep =>
      have hlt := loopBody_consumes s0 s1 c1 c2 hstep
      cases fuel with
      | zero => omega
      | succ f =>
        rw [← ih s1 s c2 c f h (by omega)]
        simp only [mainLoop, hstep]
    · simp at h

/-- The program ends with status `0` after the farewell once the quit command is read at
the operation prompt. -/
theorem main_quits (c0 : Console) (k : Nat) (s s' : MainState) (c c' : Console)
    (hreach : atPrompt c0 k = some (s, c)) (hquit : loopBody s c = Pass.quit s' c') :
    main c0 = Run.done 0 (c'.print "Goodbye!\n") := by
  unfold atPrompt at hreach
  unfold main
  split at hreach
  · next s0 c1 hstart =>
    simp only [hstart]
    rw [mainLoop_passes k s0 s c1 c _ hreach (Nat.lt_succ_self _)]
    simp only [mainLoop, hquit]
  · simp at hreach

/-! ## The four operators -/

theorem ofRatio_signBit (neg : Bool) (n d : Nat) : (Double.ofRatio neg n d).signBit = some neg := by
  unfold Double.ofRatio
  simp only []
  split_ifs <;> rfl

/-- The difference of two finite doubles is the exact difference, rounded. -/
theorem sub_fin_isRounded (s t : Bool) (m n : Nat) (e f : Int) :
    IsRounded (Double.signFactor s * (m : ℚ) * (2 : ℚ) ^ e -
        Double.signFactor t * (n : ℚ) * (2 : ℚ) ^ f)
      ((Double.fin s m e).sub (Double.fin t n f)) ∧
    (Double.signFactor s * (m : ℚ) * (2 : ℚ) ^ e -
        Double.signFactor t * (n : ℚ) * (2 : ℚ) ^ f = 0 →
      (Double.fin s m e).sub (Double.fin t n f) = Double.fin (s && !t) 0 (-1074)) := by
  have h := add_fin_isRounded s (!t) m n e f
  rw [signFactor_not] at h
  have hsub : (Double.fin s m e).sub (Double.fin t n f) =
      (Double.fin s m e).add (Double.fin (!t) n f) := rfl
  have harith : Double.signFactor s * (m : ℚ) * (2 : ℚ) ^ e -
      Double.signFactor t * (n : ℚ) * (2 : ℚ) ^ f =
      Double.signFactor s * (m : ℚ) * (2 : ℚ) ^ e +
        -Double.signFactor t * (n : ℚ) * (2 : ℚ) ^ f := by ring
  rw [hsub, harith]
  exact h

/-- C2: each operator returns the value of the matching binary64 operation.  The evaluator
hands `+`, `-`, `*` and, for a divisor that does not compare equal to zero, `/` to the
operation of that name.  On finite operands that operation yields the exact sum,
difference, product or quotient of the two numbers rounded to nearest, ties to even, and
overflowing to infinity; an exact zero sum is negative only when both terms are, and
products and quotients carry the exclusive-or of the signs.  A NaN operand gives NaN, and
infinite operands follow the rules for infinities.  The value depends on the two operands
and the operator alone: passes through the loop in states that differ in everything but the
running result leave the same running result. -/
theorem calculate_returns_arithmetic (a b : Double) :
    (calculate a b '+' = Except.ok (a.add b) ∧ calculate a b '-' = Except.ok (a.sub b) ∧
      calculate a b '*' = Except.ok (a.mul b) ∧
      (b.isZero = false → calculate a b '/' = Except.ok (a.div b))) ∧
    (∀ x y : ℚ, a.value = some x → b.value = some y →
      IsRounded (x + y) (a.add b) ∧ IsRounded (x - y) (a.sub b) ∧
      IsRounded (x * y) (a.mul b) ∧ (b.isZero = false → IsRounded (x / y) (a.div b))) ∧
    (∀ (x y : ℚ) (s t : Bool), a.value = some x → b.value = some y →
      a.signBit = some s → b.signBit = some t →
      (x + y = 0 → a.add b = Double.fin (s && t) 0 (-1074)) ∧
      (x - y = 0 → a.sub b = Double.fin (s && !t) 0 (-1074)) ∧
      (a.mul b).signBit = some (xor s t) ∧
      (b.isZero = false → (a.div b).signBit = some (xor s t))) ∧
    (a = Double.nan ∨ b = Double.nan →
      a.add b = Double.nan ∧ a.sub b = Double.nan ∧ a.mul b = Double.nan ∧
      a.div b = Double.nan) ∧
    (∀ s t : Bool, a = Double.inf s → b = Double.inf t →
      a.add b = (if s = t then Double.inf s else Double.nan) ∧
      a.sub b = (if s = t then Double.nan else Double.inf s) ∧
      a.mul b = Double.inf (xor s t) ∧ a.div b = Double.nan) ∧
    (∀ s t : Bool, a = Double.inf s → b.value.isSome = true → b.signBit = some t →
      a.add b = Double.inf s ∧ a.sub b = Double.inf s ∧
      a.mul b = (if b.isZero then Double.nan else Double.inf (xor s t)) ∧
      a.div b = Double.inf (xor s t)) ∧
    (∀ s t : Bool, a.value.isSome = true → a.signBit = some s → b = Double.inf t →
      a.add b = Double.inf t ∧ a.sub b = Double.inf (!t) ∧
      a.mul b = (if a.isZero then Double.nan else Double.inf (xor s t)) ∧
      a.div b = Double.fin (xor s t) 0 (-1074)) ∧
    (∀ (op : Char) (s s' t t' : MainState) (c c1 c2 c' c1' c2' k k' : Console),
      s.result = a → s'.result = a →
      promptForOperation c = Run.done op c1 → promptForOperation c' = Run.done op c1' →
      ¬ (op = 'q' ∨ op = 'Q') → ¬ (op = 'n' ∨ op = 'N') → ¬ (op = 'm' ∨ op = 'M') →
      promptForNumber "the next number" c1 = Run.done b c2 →
      promptForNumber "the next number" c1' = Run.done b c2' →
      loopBody s c = Pass.again t k → loopBody s' c' = Pass.again t' k' →
      t.result = t'.result ∧
        (∀ r, calculate a b op = Except.ok r → t.result = r) ∧
        (∀ what, calculate a b op = Except.error what → t = s)) := by
  refine ⟨⟨by simp [calculate], by simp [calculate], by simp [calculate], ?_⟩,
    ?_, ?_, ?_, ?_, ?_, ?_, ?_⟩
  · intro hz
    simp [calculate, hz]
  · intro x y hx hy
    cases a with
    | nan => simp [Double.value] at hx
    | inf s => simp [Double.value] at hx
    | fin s m e =>
      cases b with
      | nan => simp [Double.value] at hy
      | inf t => simp [Double.value] at hy
      | fin t n f =>
        simp only [Double.value, Option.some.injEq] at hx hy
        rw [← hx, ← hy]
        refine ⟨(add_fin_isRounded s t m n e f).1, (sub_fin_isRounded s t m n e f).1,
          mul_fin_isRounded s t m n e f, ?_⟩
        intro hz
        have hn : n ≠ 0 := by simpa [Double.isZero] using hz
        exact div_fin_isRounded s t m n e f hn
  · intro x y s' t' hx hy hs ht
    cases a with
    | nan => simp [Double.value] at hx
    | inf s => simp [Double.value] at hx
    | fin s m e =>
      cases b with
      | nan => simp [Double.value] at hy
      | inf t => simp [Double.value] at hy
      | fin t n f =>
        simp only [Double.value, Option.some.injEq] at hx hy
        simp only [Double.signBit, Option.some.injEq] at hs ht
        rw [← hx, ← hy, ← hs, ← ht]
        refine ⟨(add_fin_isRounded s t m n e f).2, (sub_fin_isRounded s t m n e f).2,
          ofRatio_signBit _ _ _, ?_⟩
        intro hz
        have hn : n ≠ 0 := by simpa [Double.isZero] using hz
        simp only [Double.div, hn, if_false]
        exact ofRatio_signBit _ _ _
  · rintro (h | h)
    · subst h
      cases b <;> exact ⟨rfl, rfl, rfl, rfl⟩
    · subst h
      cases a <;> exact ⟨rfl, rfl, rfl, rfl⟩
  · intro s t ha hb
    subst ha hb
    refine ⟨rfl, ?_, rfl, rfl⟩
    cases s <;> cases t <;> rfl
  · intro s t ha hb ht
    subst ha
    cases b with
    | nan => simp [Double.value] at hb
    | inf t0 => simp [Double.value] at hb
    | fin t0 n f =>
      simp only [Double.signBit, Option.some.injEq] at ht
      subst ht
      refine ⟨rfl, rfl, ?_, rfl⟩
      by_cases hn : n = 0
      · simp [Double.mul, Double.isZero, hn]
      · simp [Double.mul, Double.isZero, hn]
  · intro s t ha hs hb
    subst hb
    cases a with
    | nan => simp [Double.value] at ha
    | inf s0 => simp [Double.value] at ha
    | fin s0 m e =>
      simp only [Double.signBit, Option.some.injEq] at hs
      subst hs
      refine ⟨rfl, rfl, ?_, rfl⟩
      by_cases hm : m = 0
      · simp [Double.mul, Double.isZero, hm]
      · simp [Double.mul, Double.isZero, hm]
  · intro op s s' t t' c c1 c2 c' c1' c2' k k' hs hs' hop hop' hq hn hm hx hx' hstep hstep'
    cases hcalc : calculate a b op with
    | error what =>
      have h1 := loopBody_operator_error s c c1 c2 op b what hop hq hn hm hx (by rw [hs, hcalc])
      have h2 := loopBody_operator_error s' c' c1' c2' op b what hop' hq hn hm hx'
        (by rw [hs', hcalc])
      rw [h1] at hstep
      rw [h2] at hstep'
      simp only [Pass.again.injEq] at hstep hstep'
      refine ⟨by rw [← hstep.1, ← hstep'.1, hs, hs'], fun r hr => by simp at hr,
        fun _ _ => hstep.1.symm⟩
    | ok r =>
      have key : ∀ (u v : MainState) (d d1 d2 z : Console), u.result = a →
          promptForOperation d = Run.done op d1 →
          promptForNumber "the next number" d1 = Run.done b d2 →
          loopBody u d = Pass.again v z → v.result = r := by
        intro u v d d1 d2 z hu hd hd2 hst
        cases hrec : u.history[u.currentRecordIndex]? with
        | none =>
          simp [loopBody, hd, hq, hn, hm, hd2, hu, hcalc, hrec] at hst
        | some record =>
          rw [loopBody_operator_ok u d d1 d2 op b r record hd hq hn hm hd2
            (by rw [hu, hcalc]) hrec] at hst
          simp only [Pass.again.injEq] at hst
          rw [← hst.1]
      have h1 := key s t c c1 c2 k hs hop hx hstep
      have h2 := key s' t' c' c1' c2' k' hs' hop' hx' hstep'
      refine ⟨by rw [h1, h2], fun r' hr' => ?_, fun what hw => by simp at hw⟩
      simp only [Except.ok.injEq] at hr'
      rw [h1, hr']

/-- C2, at operands of the specification and others: `10 + 5 = 15`, `10 - 5 = 5`,
`15 * 2 = 30`, `15 / 2 = 7.5`, and `1 / 3` is the double nearest to one third. -/
theorem calculate_returns_arithmetic_examples :
    calculate (Double.ofInt 10) (Double.ofInt 5) '+' = Except.ok (Double.ofInt 15) ∧
      calculate (Double.ofInt 10) (Double.ofInt 5) '-' = Except.ok (Double.ofInt 5) ∧
      calculate (Double.ofInt 15) (Double.ofInt 2) '*' = Except.ok (Double.ofInt 30) ∧
      calculate (Double.ofInt 15) (Double.ofInt 2) '/' =
        Except.ok (Double.fin false 8444249301319680 (-50)) ∧
      (Double.fin false 8444249301319680 (-50)).value = some (15 / 2) ∧
      calculate (Double.ofInt 1) (Double.ofInt 3) '/' =
        Except.ok (Double.fin false 6004799503160661 (-54)) ∧
      IsRounded (1 / 3) (Double.fin false 6004799503160661 (-54)) ∧
      (Double.ofInt 15).value = some 15 ∧ (Double.ofInt 5).value = some 5 := by
  have h1 : (Double.ofInt 1).value = some 1 := by
    rw [show Double.ofInt 1 = Double.fin false 4503599627370496 (-52) from by decide]
    simp only [Double.value, Double.signFactor]
    norm_num
  have h3 : (Double.ofInt 3).value = some 3 := by
    rw [show Double.ofInt 3 = Double.fin false 6755399441055744 (-51) from by decide]
    simp only [Double.value, Double.signFactor]
    norm_num
  have hr := ((calculate_returns_arithmetic (Double.ofInt 1) (Double.ofInt 3)).2.1
    1 3 h1 h3).2.2.2 (by decide)
  rw [show (Double.ofInt 1).div (Double.ofInt 3) = Double.fin false 6004799503160661 (-54)
    from by decide] at hr
  refine ⟨(calculate_returns_arithmetic (Double.ofInt 10) (Double.ofInt 5)).1.1.trans
      (congrArg Except.ok (by decide)),
    (calculate_returns_arithmetic (Double.ofInt 10) (Double.ofInt 5)).1.2.1.trans
      (congrArg Except.ok (by decide)),
    (calculate_returns_arithmetic (Double.ofInt 15) (Double.ofInt 2)).1.2.2.1.trans
      (congrArg Except.ok (by decide)),
    ((calculate_returns_arithmetic (Double.ofInt 15) (Double.ofInt 2)).1.2.2.2
      (by decide)).trans (congrArg Except.ok (by decide)),
    ?_, ((calculate_returns_arithmetic (Double.ofInt 1) (Double.ofInt 3)).1.2.2.2
      (by decide)).trans (congrArg Except.ok (by decide)), hr, ?_, ?_⟩
  · simp only [Double.value, Double.signFactor]
    norm_num
  · rw [show Double.ofInt 15 = Double.fin false 8444249301319680 (-49) from by decide]
    simp only [Double.value, Double.signFactor]
    norm_num
  · rw [show Double.ofInt 5 = Double.fin false 5629499534213120 (-50) from by decide]
    simp only [Double.value, Double.signFactor]
    norm_num

/-! ## Sessions -/

/-- C4: creating a session never fails and appends one record.  After the `n`/`N` command
and the seed, a store of size `n` has size `n + 1`, its last record holds the seed as
`lastResult` and the single step `Start: seed`, that record is the active one, the running
result is the seed, and the summaries end with `(n + 1, seed)`.  At startup the same record
is the whole store. -/
theorem createSession_appends (s : MainState) (c c1 c2 : Console) (op : Char) (seed : Double)
    (hop : promptForOperation c = Run.done op c1) (hn : op = 'n' ∨ op = 'N')
    (hseed : promptForNumber "the first number" c1 = Run.done seed c2) :
    loopBody s c =
        Pass.again ⟨seed, s.history ++ [⟨["Start: " ++ seed.format], seed⟩], s.history.length⟩
          (c2.print ("Current result: " ++ seed.format ++ "\n")) ∧
      (s.history ++ [(⟨["Start: " ++ seed.format], seed⟩ : CalculationRecord)]).length =
        s.history.length + 1 ∧
      (listSummaries (s.history ++ [⟨["Start: " ++ seed.format], seed⟩])).getLast? =
        some (s.history.length + 1, seed) ∧
      (∀ c0 c3 : Console,
        promptForNumber "the first number"
            ((c0.print "Simple Calculator\n").print "-----------------\n") = Run.done seed c3 →
          start c0 = Run.done ⟨seed, [⟨["Start: " ++ seed.format], seed⟩], 0⟩
            (c3.print ("Current result: " ++ seed.format ++ "\n"))) := by
  refine ⟨?_, by simp, ?_, ?_⟩
  · rw [loopBody_new s c c1 c2 op seed hop hn hseed]
    simp [createInitialRecord]
  · simp [listSummaries, listSummariesFrom_append]
  · intro c0 c3 h
    simp [start, h, createInitialRecord]

/-- C4, for a second session seeded `2` after a first one seeded `1`. -/
theorem createSession_appends_second_session :
    loopBody ⟨Double.ofInt 1, [⟨["Start: 1"], Double.ofInt 1⟩], 0⟩
        ⟨[Token.character 'n', Token.number (Double.ofInt 2)], ""⟩ =
      Pass.again
        ⟨Double.ofInt 2, [⟨["Start: 1"], Double.ofInt 1⟩, ⟨["Start: 2"], Double.ofInt 2⟩], 1⟩
        ⟨[], operationPrompt ++ "Enter the first number: Current result: 2\n"⟩ :=
  (createSession_appends ⟨Double.ofInt 1, [⟨["Start: 1"], Double.ofInt 1⟩], 0⟩
    ⟨[Token.character 'n', Token.number (Double.ofInt 2)], ""⟩
    ⟨[Token.number (Double.ofInt 2)], operationPrompt⟩
    ⟨[], operationPrompt ++ "Enter the first number: "⟩ 'n' (Double.ofInt 2)
    (by decide) (Or.inl rfl) (by decide)).1.trans (by decide)

/-- C5: successful operations are logged in order.  From a state whose running result `r`
is the `lastResult` of the active record, entering operations that all evaluate appends to
that record exactly the expected entries `previous op operand = result`, one per
operation, each starting from the result of the one before, and leaves the last result as
`lastResult` and as the running result; the other records are untouched.  For a freshly
seeded session the steps are `Start: seed` followed by those entries. -/
theorem successful_operations_log (r : Double) (ops : List (Char × Double))
    (steps : List String) (final : Double) (prior : List CalculationRecord)
    (st : List String) (rest : List Token) (out : String)
    (hops : ∀ p ∈ ops, p.1 = '+' ∨ p.1 = '-' ∨ p.1 = '*' ∨ p.1 = '/' ∨ p.1 = '%')
    (hexp : expectedSteps r ops = some (steps, final)) :
    steps.length = ops.length ∧
      (∃ out', passes ops.length ⟨r, prior ++ [⟨st, r⟩], prior.length⟩
          ⟨operationInput ops ++ rest, out⟩ =
        some (⟨final, prior ++ [⟨st ++ steps, final⟩], prior.length⟩, ⟨rest, out'⟩)) ∧
      (∃ out', passes ops.length ⟨r, prior ++ [createInitialRecord r], prior.length⟩
          ⟨operationInput ops ++ rest, out⟩ =
        some (⟨final, prior ++ [⟨("Start: " ++ r.format) :: steps, final⟩], prior.length⟩,
          ⟨rest, out'⟩)) := by
  refine ⟨(passes_operations ops r prior st rest out steps final hops hexp).1,
    (passes_operations ops r prior st rest out steps final hops hexp).2, ?_⟩
  obtain ⟨out', h⟩ :=
    (passes_operations ops r prior ["Start: " ++ r.format] rest out steps final hops hexp).2
  exact ⟨out', by simpa [createInitialRecord] using h⟩

/-- C5, for the scenario of the specification: seed `10`, then `+ 5`, then `* 2`. -/
theorem successful_operations_log_example :
    ∃ out', passes 2 ⟨Double.ofInt 10, [createInitialRecord (Double.ofInt 10)], 0⟩
        ⟨[Token.character '+', Token.number (Double.ofInt 5), Token.character '*',
          Token.number (Double.ofInt 2)], ""⟩ =
      some (⟨Double.ofInt 30,
          [⟨["Start: 10", "10 + 5 = 15", "15 * 2 = 30"], Double.ofInt 30⟩], 0⟩, ⟨[], out'⟩) := by
  obtain ⟨out', h⟩ := (successful_operations_log (Double.ofInt 10)
    [('+', Double.ofInt 5), ('*', Double.ofInt 2)] ["10 + 5 = 15", "15 * 2 = 30"]
    (Double.ofInt 30) [] [] [] "" (by decide) (by decide)).2.2
  rw [show "Start: " ++ (Double.ofInt 10).format = "Start: 10" from by decide] at h
  exact ⟨out', h⟩

/-- C6: a failed evaluation changes nothing.  When the evaluator throws for the operator and
operand read, the pass ends at the operation prompt with the same running result, the same
store and the same active index; only the error message is printed. -/
theorem failed_operation_keeps_state (s : MainState) (c c1 c2 : Console) (op : Char)
    (x : Double) (what : String)
    (hop : promptForOperation c = Run.done op c1)
    (hq : ¬ (op = 'q' ∨ op = 'Q')) (hn : ¬ (op = 'n' ∨ op = 'N')) (hm : ¬ (op = 'm' ∨ op = 'M'))
    (hx : promptForNumber "the next number" c1 = Run.done x c2)
    (herr : calculate s.result x op = Except.error what) :
    loopBody s c = Pass.again s (c2.print ("Error: " ++ what ++ "\n")) :=
  loopBody_operator_error s c c1 c2 op x what hop hq hn hm hx herr

/-- C6, for the scenario of the specification: seed `8`, then `/ 0` leaves the result `8`
and the steps `Start: 8`, and a following `+ 1` gives `9`. -/
theorem failed_operation_keeps_state_example :
    loopBody ⟨Double.ofInt 8, [⟨["Start: 8"], Double.ofInt 8⟩], 0⟩
        ⟨[Token.character '/', Token.number (Double.ofInt 0), Token.character '+',
          Token.number (Double.ofInt 1)], ""⟩ =
      Pass.again ⟨Double.ofInt 8, [⟨["Start: 8"], Double.ofInt 8⟩], 0⟩
        ⟨[Token.character '+', Token.number (Double.ofInt 1)],
          operationPrompt ++ "Enter the next number: Error: Division by zero is undefined.\n"⟩ ∧
    (passes 2 ⟨Double.ofInt 8, [⟨["Start: 8"], Double.ofInt 8⟩], 0⟩
        ⟨[Token.character '/', Token.number (Double.ofInt 0), Token.character '+',
          Token.number (Double.ofInt 1)], ""⟩).map (fun p => p.1) =
      some ⟨Double.ofInt 9, [⟨["Start: 8", "8 + 1 = 9"], Double.ofInt 9⟩], 0⟩ :=
  ⟨(failed_operation_keeps_state ⟨Double.ofInt 8, [⟨["Start: 8"], Double.ofInt 8⟩], 0⟩
      ⟨[Token.character '/', Token.number (Double.ofInt 0), Token.character '+',
        Token.number (Double.ofInt 1)], ""⟩
      ⟨[Token.number (Double.ofInt 0), Token.character '+', Token.number (Double.ofInt 1)],
        operationPrompt⟩
      ⟨[Token.character '+', Token.number (Double.ofInt 1)],
        operationPrompt ++ "Enter the next number: "⟩
      '/' (Double.ofInt 0) "Division by zero is undefined."
      (by decide) (by decide) (by decide) (by decide) (by decide) rfl).trans (by decide),
    by decide⟩

/-! ## Browsing -/

theorem loopBody_memory_state (s s' : MainState) (c c1 c' : Console) (op : Char)
    (hop : promptForOperation c = Run.done op c1) (hm : op = 'm' ∨ op = 'M')
    (h : loopBody s c = Pass.again s' c') : s' = s := by
  cases hs : showHistory s.history c1 with
  | done u c2 =>
    rw [loopBody_memory s c c1 c2 op u hop hm hs] at h
    simp only [Pass.again.injEq] at h
    exact h.1.symm
  | blocked => rcases hm with rfl | rfl <;> simp [loopBody, hop, hs] at h
  | fault => rcases hm with rfl | rfl <;> simp [loopBody, hop, hs] at h

/-- The text of the steps is, for each step in order, two blanks, the step and a line
end. -/
theorem stepsText_data (steps : List String) :
    (stepsText steps).data =
      steps.flatMap (fun step => ' ' :: ' ' :: (step.data ++ ['\n'])) := by
  induction steps with
  | nil => rfl
  | cons step rest ih =>
    simp only [stepsText, String.data_append, ih, List.flatMap_cons]
    simp

theorem stepsText_mk (steps : List String) :
    String.mk (steps.flatMap (fun step => ' ' :: ' ' :: (step.data ++ ['\n']))) =
      stepsText steps :=
  String.ext (stepsText_data steps).symm

/-- The text of an `int` is its decimal numeral. -/
theorem intText_eq_toString (i : Int) : intText i = toString i := by
  cases i with
  | ofNat n =>
    have h : ¬ ((Int.ofNat n) < 0) := by simp
    simp only [intText, h, if_false]
    rfl
  | negSucc n =>
    have h : Int.negSucc n < 0 := Int.negSucc_lt_zero n
    simp only [intText, h, if_true]
    rfl

/-- C7: browsing a store of `n ≥ 1` records, for every value `k` of the `int` selection.
Selection `0` ends the browsing; a selection `1 ≤ k ≤ n` finds the record at position
`k - 1` and prints the heading with the numeral of `k`, then exactly the steps of that
record, each on a line of its own after two blanks, and prompts again; a negative selection
or one above `n` prints the out-of-range message only and prompts again.  No lookup is out
of bounds, and the pass for the `m`/`M` command comes back to the operation prompt with the
state of `main` unchanged. -/
theorem showHistory_selection (history : List CalculationRecord) (hne : history ≠ [])
    (k : Int) (hk : -2147483648 ≤ k ∧ k ≤ 2147483647) (rest : List Token) (out : String) :
    (k = 0 → showHistory history ⟨Token.integer k :: rest, out⟩ =
        Run.done () ⟨rest, out ++ browsePrompt history ++ "\n"⟩) ∧
      (1 ≤ k → k ≤ (history.length : Int) →
        ∃ record : CalculationRecord,
          history[k.toNat - 1]? = some record ∧
          showHistory history ⟨Token.integer k :: rest, out⟩ =
            showHistory history ⟨rest, out ++ browsePrompt history ++
              ("Calculation " ++ toString k ++ " steps:\n" ++
                String.mk (record.steps.flatMap
                  (fun step => ' ' :: ' ' :: (step.data ++ ['\n']))) ++ "\n")⟩) ∧
      (k < 0 ∨ (history.length : Int) < k →
        showHistory history ⟨Token.integer k :: rest, out⟩ =
          showHistory history ⟨rest, out ++ browsePrompt history ++
            "Selection out of range. Try again.\n"⟩) ∧
      (∀ c : Console, showHistory history c ≠ Run.fault) ∧
      (∀ (s s' : MainState) (c c1 c' : Console) (op : Char), s.history = history →
        promptForOperation c = Run.done op c1 → op = 'm' ∨ op = 'M' →
        loopBody s c = Pass.again s' c' → s' = s) := by
  have hemp : history.isEmpty = false := by
    cases history with
    | nil => exact absurd rfl hne
    | cons a l => rfl
  refine ⟨?_, ?_, ?_, fun c => showHistory_ne_fault history c, ?_⟩
  · intro hk0
    subst hk0
    simp [showHistory, hemp, showHistoryLoop, Token.asInteger]
  · intro h1 h2
    have hlt : k.toNat - 1 < history.length := by omega
    refine ⟨history[k.toNat - 1], List.getElem?_eq_getElem hlt, ?_⟩
    have h0 : ¬ k = 0 := by omega
    have hr : ¬ (k < 0 ∨ k.toNat > history.length) := by omega
    rw [← intText_eq_toString, stepsText_mk]
    simp only [showHistory, hemp, showHistoryLoop, Token.asInteger, h0, hr, if_false,
      List.getElem?_eq_getElem hlt, recordText]
    simp
  · intro hk'
    have h0 : ¬ k = 0 := by
      have := List.length_pos.mpr hne
      omega
    have hr : k < 0 ∨ k.toNat > history.length := by omega
    simp only [showHistory, hemp, showHistoryLoop, Token.asInteger, h0, hr, if_false, if_true]
    simp
  · intro s s' c c1 c' op _ hop hm h
    exact loopBody_memory_state s s' c c1 c' op hop hm h

/-- C7, for the scenarios of the specification: with two sessions, selection `2` prints the
two steps of the second session, selection `99` is reported out of range, and selection `0`
then returns. -/
theorem showHistory_selection_example :
    showHistory
        [⟨["Start: 1"], Double.ofInt 1⟩, ⟨["Start: 2", "2 + 5 = 7"], Double.ofInt 7⟩]
        ⟨[Token.integer 2, Token.integer 99, Token.integer 0], ""⟩ =
      Run.done ()
        ⟨[], "\nStored calculations:\n  1) Last result: 1\n  2) Last result: 7\n" ++
            "Select calculation number to view (0 to return): " ++
            "Calculation 2 steps:\n  Start: 2\n  2 + 5 = 7\n\n" ++
            "\nStored calculations:\n  1) Last result: 1\n  2) Last result: 7\n" ++
            "Select calculation number to view (0 to return): " ++
            "Selection out of range. Try again.\n" ++
            "\nStored calculations:\n  1) Last result: 1\n  2) Last result: 7\n" ++
            "Select calculation number to view (0 to return): " ++ "\n"⟩ := by
  obtain ⟨record, hrec, hshow⟩ :=
    (showHistory_selection
      [⟨["Start: 1"], Double.ofInt 1⟩, ⟨["Start: 2", "2 + 5 = 7"], Double.ofInt 7⟩]
      (by decide) 2 (by decide) [Token.integer 99, Token.integer 0] "").2.1
      (by decide) (by decide)
  have hrecord : record = ⟨["Start: 2", "2 + 5 = 7"], Double.ofInt 7⟩ :=
    (Option.some.inj hrec).symm
  subst hrecord
  rw [hshow]
  decide

/-! ## Invariants of the loop -/

/-- C8: the store is append-only with stable indices.  From any state reached at the
operation prompt, after any number of further passes the store is at least as long, every
record is at its old index with its old steps as the beginning of its steps, and every
record other than the active one, which is the last one, is the same as before; after one
pass every record other than the one active afterwards is the same.  The summaries list the
records at their indices, and quitting leaves the state as it is. -/
theorem store_is_append_only (c0 : Console) (k j : Nat) (s s' : MainState) (c c' : Console)
    (hreach : atPrompt c0 k = some (s, c)) (hrun : passes j s c = some (s', c')) :
    s.currentRecordIndex = s.history.length - 1 ∧
      s.history.length ≤ s'.history.length ∧
      (∀ (i : Nat) (record : CalculationRecord), s.history[i]? = some record →
        ∃ record' : CalculationRecord, s'.history[i]? = some record' ∧
          record.steps <+: record'.steps ∧
          (i ≠ s.currentRecordIndex → record' = record) ∧
          (j = 1 → i ≠ s'.currentRecordIndex → record' = record) ∧
          (listSummaries s'.history)[i]? = some (i + 1, record'.lastResult)) ∧
      (∀ (s'' : MainState) (c'' : Console), loopBody s c = Pass.quit s'' c'' → s'' = s) := by
  obtain ⟨hlen, hrecs⟩ := grows_passes j s s' c c' hrun
  refine ⟨(inv_atPrompt c0 k s c hreach).1.2.1, hlen, ?_, fun s'' c'' h =>
    loopBody_quit_state s s'' c c'' h⟩
  intro i record hi
  obtain ⟨record', h1, h2, h3⟩ := hrecs i record hi
  refine ⟨record', h1, h2, h3, ?_, ?_⟩
  · intro hj hne
    subst hj
    unfold passes at hrun
    split at hrun
    · next s1 c1 hstep =>
      simp only [passes, Option.some.injEq, Prod.mk.injEq] at hrun
      obtain ⟨-, hrecs1⟩ := (grows_step s s1 c c1 hstep).1
      obtain ⟨r1, h4, -, h5⟩ := hrecs1 i record hi
      rw [hrun.1] at h4 h5
      rw [h1] at h4
      rw [Option.some.inj h4]
      exact h5 hne
    · simp at hrun
  · simp [listSummaries, listSummariesFrom_getElem?, h1]

/-- C8, for the scenario of the specification: after sessions seeded `1` and `2` the
summaries are `(1, 1), (2, 2)`, and an operation on session 2 leaves entry `(1, 1)`. -/
theorem store_is_append_only_two_sessions :
    listSummaries [⟨["Start: 1"], Double.ofInt 1⟩, ⟨["Start: 2"], Double.ofInt 2⟩] =
        [(1, Double.ofInt 1), (2, Double.ofInt 2)] ∧
      ∃ record' : CalculationRecord,
        ([⟨["Start: 1"], Double.ofInt 1⟩, ⟨["Start: 2", "2 + 5 = 7"], Double.ofInt 7⟩] :
          List CalculationRecord)[0]? = some record' ∧
        record' = ⟨["Start: 1"], Double.ofInt 1⟩ ∧
        (listSummaries [⟨["Start: 1"], Double.ofInt 1⟩,
          ⟨["Start: 2", "2 + 5 = 7"], Double.ofInt 7⟩])[0]? = some (1, record'.lastResult) := by
  refine ⟨by decide, ?_⟩
  obtain ⟨record', h1, -, h3, -, h5⟩ :=
    (store_is_append_only
      ⟨[Token.number (Double.ofInt 1), Token.character 'n', Token.number (Double.ofInt 2),
        Token.character '+', Token.number (Double.ofInt 5)], ""⟩ 1 1
      ⟨Double.ofInt 2, [⟨["Start: 1"], Double.ofInt 1⟩, ⟨["Start: 2"], Double.ofInt 2⟩], 1⟩
      ⟨Double.ofInt 7,
        [⟨["Start: 1"], Double.ofInt 1⟩, ⟨["Start: 2", "2 + 5 = 7"], Double.ofInt 7⟩], 1⟩
      ⟨[Token.character '+', Token.number (Double.ofInt 5)],
        "Simple Calculator\n-----------------\nEnter the first number: Current result: 1\n" ++
          operationPrompt ++ "Enter the first number: Current result: 2\n"⟩
      ⟨[], "Simple Calculator\n-----------------\nEnter the first number: Current result: 1\n" ++
          operationPrompt ++ "Enter the first number: Current result: 2\n" ++
          operationPrompt ++ "Enter the next number: Result: 7\n"⟩
      (by decide) (by decide)).2.2.1 0 ⟨["Start: 1"], Double.ofInt 1⟩ rfl
  exact ⟨record', h1, h3 (by decide), h5⟩

/-- C9: every record of every state reached at the operation prompt is consistent: its
steps are not empty and start with the seed entry `Start: seed`, and its last step is
either that entry, with `lastResult` the seed, or an operation entry ending in ` = ` and
the text of `lastResult`.  `createInitialRecord` establishes this and `appendStep` keeps
it. -/
theorem records_stay_consistent (c0 : Console) (k : Nat) (s : MainState) (c : Console)
    (hreach : atPrompt c0 k = some (s, c)) :
    (∀ record ∈ s.history, RecordInv record) ∧
      (∀ v : Double, RecordInv (createInitialRecord v)) ∧
      (∀ (record : CalculationRecord) (p : Double) (op : Char) (x n : Double),
        RecordInv record → RecordInv (appendStep record p op x n)) :=
  ⟨(inv_atPrompt c0 k s c hreach).2, recordInv_create, recordInv_append⟩

/-- C9, after seed `10` and `+ 5`. -/
theorem records_stay_consistent_example :
    RecordInv ⟨["Start: 10", "10 + 5 = 15"], Double.ofInt 15⟩ :=
  (records_stay_consistent
    ⟨[Token.number (Double.ofInt 10), Token.character '+', Token.number (Double.ofInt 5)], ""⟩ 1
    ⟨Double.ofInt 15, [⟨["Start: 10", "10 + 5 = 15"], Double.ofInt 15⟩], 0⟩
    ⟨[], "Simple Calculator\n-----------------\nEnter the first number: Current result: 10\n" ++
      operationPrompt ++ "Enter the next number: Result: 15\n"⟩
    (by decide)).1 _ (List.mem_singleton.mpr rfl)

/-- C10: at every arrival at the operation prompt the store is not empty, the active index
is `size - 1`, and the running result is the `lastResult` of the active record.  So the
evaluator is called with that `lastResult` as its left operand, the access
`history[currentRecordIndex]` is in bounds and no pass faults, the `m` command never finds
the store empty, and only the `n`/`N` command changes the active index. -/
theorem prompt_invariant (c0 : Console) (k : Nat) (s : MainState) (c : Console)
    (hreach : atPrompt c0 k = some (s, c)) :
    s.history ≠ [] ∧ s.currentRecordIndex = s.history.length - 1 ∧
      (∃ record, s.history[s.currentRecordIndex]? = some record ∧
        record.lastResult = s.result ∧
        ∀ (op : Char) (c1 c2 : Console) (x : Double),
          promptForOperation c = Run.done op c1 →
          ¬ (op = 'q' ∨ op = 'Q') → ¬ (op = 'n' ∨ op = 'N') → ¬ (op = 'm' ∨ op = 'M') →
          promptForNumber "the next number" c1 = Run.done x c2 →
          (∀ r, calculate record.lastResult x op = Except.ok r →
            loopBody s c =
              Pass.again
                ⟨r, s.history.set s.currentRecordIndex
                  (appendStep record record.lastResult op x r), s.currentRecordIndex⟩
                (c2.print ("Result: " ++ r.format ++ "\n"))) ∧
          (∀ what, calculate record.lastResult x op = Except.error what →
            loopBody s c = Pass.again s (c2.print ("Error: " ++ what ++ "\n")))) ∧
      loopBody s c ≠ Pass.fault ∧
      (∀ c1 : Console, showHistory s.history c1 = showHistoryLoop s.history c1.input c1.output) ∧
      (∀ (s' : MainState) (c' : Console), loopBody s c = Pass.again s' c' →
        s'.currentRecordIndex ≠ s.currentRecordIndex →
        ∃ op c1, promptForOperation c = Run.done op c1 ∧ (op = 'n' ∨ op = 'N')) := by
  obtain ⟨⟨hne, hidx, record, hrec, hlast⟩, -⟩ := inv_atPrompt c0 k s c hreach
  refine ⟨hne, hidx, ⟨record, hrec, hlast, ?_⟩, loopBody_ne_fault s c ⟨record, hrec⟩, ?_, ?_⟩
  · intro op c1 c2 x hop hq hn hm hx
    rw [hlast]
    exact ⟨fun r hcalc => loopBody_operator_ok s c c1 c2 op x r record hop hq hn hm hx hcalc hrec,
      fun what hcalc => loopBody_operator_error s c c1 c2 op x what hop hq hn hm hx hcalc⟩
  · intro c1
    have hemp : s.history.isEmpty = false := by
      cases hh : s.history with
      | nil => exact absurd hh hne
      | cons a l => rfl
    simp [showHistory, hemp]
  · intro s' c' h hchange
    rcases loopBody_again s s' c c' h with ⟨seed, op, c1, hop, hn, -⟩ | hs | ⟨_, _, _, _, -, -, hs⟩
    · exact ⟨op, c1, hop, hn⟩
    · rw [hs] at hchange
      exact absurd rfl hchange
    · rw [hs] at hchange
      exact absurd rfl hchange

/-- C10, after seed `10` and `+ 5`: the store holds one record, it is the active one, and
its `lastResult` is the running result `15`. -/
theorem prompt_invariant_example :
    ([(⟨["Start: 10", "10 + 5 = 15"], Double.ofInt 15⟩ : CalculationRecord)] ≠ []) ∧
      (0 : Nat) = [(⟨["Start: 10", "10 + 5 = 15"], Double.ofInt 15⟩ : CalculationRecord)].length - 1 ∧
      loopBody ⟨Double.ofInt 15, [⟨["Start: 10", "10 + 5 = 15"], Double.ofInt 15⟩], 0⟩
        ⟨[], "Simple Calculator\n-----------------\nEnter the first number: Current result: 10\n" ++
          operationPrompt ++ "Enter the next number: Result: 15\n"⟩ ≠ Pass.fault :=
  have h := prompt_invariant
    ⟨[Token.number (Double.ofInt 10), Token.character '+', Token.number (Double.ofInt 5)], ""⟩ 1
    ⟨Double.ofInt 15, [⟨["Start: 10", "10 + 5 = 15"], Double.ofInt 15⟩], 0⟩
    ⟨[], "Simple Calculator\n-----------------\nEnter the first number: Current result: 10\n" ++
      operationPrompt ++ "Enter the next number: Result: 15\n"⟩
    (by decide)
  ⟨h.1, h.2.1, h.2.2.2.1⟩

end Calculator
